import Mathlib

/-!
Verification development for the GoGoGadgetGravity physics core
(package `physics`, plus the configuration event handlers of package `main`).

The Go source is shallowly embedded.  Numeric values (`float64` in Go) are
modelled by exact rationals `ℚ` for the algebraic claims; floating-point
rounding does not affect any of the statements proved over `ℚ` (sums,
weighted averages, comparisons, clamps).  The one place where IEEE-754
semantics are essential, the division by a zero neighbour count in
`updateParticleVelocities` (which produces `0 * Inf = NaN` in the binary64
arithmetic the program actually runs), is modelled by the dedicated type
`GFloat` below, which represents a binary64 value abstractly as a finite
rational, `+Inf`, `-Inf` or `NaN`.  Finite `GFloat` arithmetic is exact
(no rounding), which is conservative for the NaN-propagation statement
proved with it.

The phase functions (`updateParticleVelocities`, `UpdateParticles`, ...)
are written once over an abstract operation record `NumOps` wherever the
two number models must share code, and are instantiated at `ℚ` (`qOps`)
and at `GFloat` (`gOps`).

Two quantities computed by the source are irrational-valued and therefore
not representable in `ℚ`:
* `vector.Magnitude` (a square root), and
* the derived radius `int(max(round(sqrt(mass)/(2*sqrt(pi))), 1))`.
The embedding is parametric in these: `magFn : Vec α → α` models
`Magnitude`, and `radiusFn : ℚ → ℤ` models the radius computation of
`Particle.SetMass`.  All universally-quantified theorems below hold for
every choice of these parameters (hence in particular for the value the
floating-point program computes); witnesses instantiate them with
concrete computable stand-ins.
-/

namespace GGGG

/-- Abstract record of the numeric operations used by the embedded code.
`lt x y` models the Go comparison `x < y` (false whenever either operand
is NaN in the `GFloat` instance), `signbit` models `math.Signbit`, and
`abs` models `math.Abs`. -/
structure NumOps (α : Type) where
  zero : α
  one : α
  ofInt : ℤ → α
  add : α → α → α
  sub : α → α → α
  mul : α → α → α
  div : α → α → α
  lt : α → α → Bool
  abs : α → α
  signbit : α → Bool

/-- The exact-rational instantiation of the numeric operations.
Note `ℚ` has no NaN/infinity: `div x 0 = 0` here, whereas binary64
produces infinities/NaN.  A `ℚ`-model trace is therefore faithful to
the program only while every division it crosses has a nonzero divisor.
The one code path that really divides by zero (the zero-count average
in `updateParticleVelocities`) is analysed separately with the `GFloat`
instantiation, and every concrete `ℚ` trace offered as evidence below
records its contributing counts (`velContribCount`) to show it stays
clear of that path. -/
def qOps : NumOps ℚ where
  zero := 0
  one := 1
  ofInt := fun n => (n : ℚ)
  add := (· + ·)
  sub := (· - ·)
  mul := (· * ·)
  div := (· / ·)
  lt := fun x y => decide (x < y)
  abs := fun x => |x|
  signbit := fun x => decide (x < 0)

/-- Abstract binary64 value: a finite (exact) rational, an infinity, or NaN.
Models the IEEE-754 special-value behaviour of Go `float64` arithmetic;
finite arithmetic is exact rather than rounded. -/
inductive GFloat : Type where
  | fin : ℚ → GFloat
  | pinf : GFloat
  | ninf : GFloat
  | nan : GFloat
  deriving DecidableEq, Repr

namespace GFloat

/-- IEEE-754 addition on the abstraction: NaN absorbs, opposite infinities
give NaN, an infinity absorbs finite values, finite addition is exact. -/
def addG : GFloat → GFloat → GFloat
  | nan, _ => nan
  | _, nan => nan
  | pinf, ninf => nan
  | ninf, pinf => nan
  | pinf, _ => pinf
  | _, pinf => pinf
  | ninf, _ => ninf
  | _, ninf => ninf
  | fin a, fin b => fin (a + b)

/-- IEEE-754 negation. -/
def negG : GFloat → GFloat
  | nan => nan
  | pinf => ninf
  | ninf => pinf
  | fin a => fin (-a)

/-- IEEE-754 subtraction, `x - y = x + (-y)`. -/
def subG (x y : GFloat) : GFloat := addG x (negG y)

/-- IEEE-754 multiplication: NaN absorbs, `0 * Inf = NaN`, infinities
follow the sign rules, finite multiplication is exact. -/
def mulG : GFloat → GFloat → GFloat
  | nan, _ => nan
  | _, nan => nan
  | pinf, pinf => pinf
  | pinf, ninf => ninf
  | ninf, pinf => ninf
  | ninf, ninf => pinf
  | pinf, fin b => if b = 0 then nan else if 0 < b then pinf else ninf
  | ninf, fin b => if b = 0 then nan else if 0 < b then ninf else pinf
  | fin a, pinf => if a = 0 then nan else if 0 < a then pinf else ninf
  | fin a, ninf => if a = 0 then nan else if 0 < a then ninf else pinf
  | fin a, fin b => fin (a * b)

/-- IEEE-754 division: NaN absorbs, `0/0` and `Inf/Inf` give NaN, a
nonzero finite value divided by zero gives a signed infinity (there is no
negative zero in this abstraction; Go's `1.0/0.0` is `+Inf`), division by
an infinity gives zero, finite division is exact. -/
def divG : GFloat → GFloat → GFloat
  | nan, _ => nan
  | _, nan => nan
  | pinf, pinf => nan
  | pinf, ninf => nan
  | ninf, pinf => nan
  | ninf, ninf => nan
  | pinf, fin b => if 0 ≤ b then pinf else ninf
  | ninf, fin b => if 0 ≤ b then ninf else pinf
  | fin _, pinf => fin 0
  | fin _, ninf => fin 0
  | fin a, fin b =>
      if b = 0 then (if a = 0 then nan else if 0 < a then pinf else ninf)
      else fin (a / b)

/-- IEEE-754 ordered comparison `x < y`: false whenever an operand is NaN. -/
def ltG : GFloat → GFloat → Bool
  | nan, _ => false
  | _, nan => false
  | ninf, ninf => false
  | ninf, _ => true
  | _, ninf => false
  | pinf, _ => false
  | fin _, pinf => true
  | fin a, fin b => decide (a < b)

/-- `math.Abs` on the abstraction. -/
def absG : GFloat → GFloat
  | nan => nan
  | pinf => pinf
  | ninf => pinf
  | fin a => fin |a|

/-- `math.Signbit` on the abstraction (no negative zero; `Signbit NaN`
is bit-pattern dependent in Go and never reached by the embedded code). -/
def signbitG : GFloat → Bool
  | nan => false
  | pinf => false
  | ninf => true
  | fin a => decide (a < 0)

/-- Whether the value is NaN. -/
def isNaN : GFloat → Bool
  | nan => true
  | _ => false

end GFloat

/-- The binary64 special-value instantiation of the numeric operations. -/
def gOps : NumOps GFloat where
  zero := GFloat.fin 0
  one := GFloat.fin 1
  ofInt := fun n => GFloat.fin (n : ℚ)
  add := GFloat.addG
  sub := GFloat.subG
  mul := GFloat.mulG
  div := GFloat.divG
  lt := GFloat.ltG
  abs := GFloat.absG
  signbit := GFloat.signbitG

/-! ## Two-dimensional vectors

`vector.Vector` from github.com/atedja/go-vector, always of length 2 in
this program.  `Dot` on two length-2 vectors never returns an error, so
the `err != nil` branches of the source are dead and not modelled. -/

/-- A 2-vector of numeric values (`vector.Vector` of length 2). -/
abbrev Vec (α : Type) : Type := α × α

/-- Componentwise `vector.Add`. -/
def vadd (ops : NumOps α) (v w : Vec α) : Vec α :=
  (ops.add v.1 w.1, ops.add v.2 w.2)

/-- Componentwise `vector.Subtract`. -/
def vsub (ops : NumOps α) (v w : Vec α) : Vec α :=
  (ops.sub v.1 w.1, ops.sub v.2 w.2)

/-- `Vector.Scale` by a scalar (the source mutates in place; the embedding
returns the scaled vector). -/
def vscale (ops : NumOps α) (s : α) (v : Vec α) : Vec α :=
  (ops.mul v.1 s, ops.mul v.2 s)

/-- `vector.Dot` of two length-2 vectors (the error result is `nil` here). -/
def vdot (ops : NumOps α) (v w : Vec α) : α :=
  ops.add (ops.mul v.1 w.1) (ops.mul v.2 w.2)

/-- The zero vector `vector.New(2)`. -/
def vzero (ops : NumOps α) : Vec α := (ops.zero, ops.zero)

/-! ## Particle

`physics.Particle` (particles.go).  Pointer identity is modelled by an
`id : ℕ` field: the roster never holds two particles of equal `id`, the
map `MergingWith` (keyed by `*Particle` in Go) becomes a duplicate-free
list of ids, and `bouncingAgainst` an optional id.  The display proxies
`R`, `G`, `A` (uint8 colour channels derived from the charges) are not
modelled: no claim mentions them and nothing else reads them. -/

structure Particle (α : Type) where
  /-- Pointer identity of the Go `*Particle`. -/
  id : ℕ
  /-- `particleData.Mass`. -/
  mass : α
  /-- `particleData.CloseCharge`, clamped to `[-1, 1]` on write. -/
  closeCharge : α
  /-- `particleData.FarCharge`, clamped to `[0, 1]` on write. -/
  farCharge : α
  /-- `particleData.Position`. -/
  position : Vec α
  /-- `particleData.Velocity`. -/
  velocity : Vec α
  /-- `Particle.Radius`, the `int` proxy recomputed by `SetMass`. -/
  radius : ℤ
  /-- `particleData.trackHistory`. -/
  trackHistory : Bool
  /-- `particleData.historySize` (a Go `int`). -/
  historySize : ℤ
  /-- `particleData.positionHistory`. -/
  positionHistory : List (Vec α)
  /-- `Particle.merging`. -/
  merging : Bool
  /-- `Particle.MergingWith`, a set of particle identities. -/
  mergingWith : List ℕ
  /-- `Particle.bouncing`. -/
  bouncing : Bool
  /-- `Particle.bouncingAgainst`. -/
  bouncingAgainst : Option ℕ

deriving instance DecidableEq for Particle
deriving instance Repr for Particle

/-- Membership test in a `MergingWith` set (Go map lookup `p.MergingWith[o]`). -/
def memberId (i : ℕ) (s : List ℕ) : Bool := s.contains i

/-- Adding a key to a `MergingWith` set (`p.MergingWith[o] = struct{}{}`):
a map insert is a no-op when the key is already present. -/
def insertId (i : ℕ) (s : List ℕ) : List ℕ :=
  if memberId i s then s else s ++ [i]

/-- Removing a key from a `MergingWith` set (`delete(o.MergingWith, p)`). -/
def removeId (i : ℕ) (s : List ℕ) : List ℕ :=
  s.filter (fun j => j ≠ i)

/-! Setters of particles.go.  `SetMass` recomputes the radius via the
uninterpreted `radiusFn` (the source computes
`int(math.Max(math.Round(math.Sqrt(mass)/(2*math.SqrtPi)), 1))`,
which is irrational-valued before conversion). -/

/-- `Particle.SetMass` (particles.go:163): store the mass and recompute the
radius proxy. -/
def Particle.SetMass (radiusFn : α → ℤ) (p : Particle α) (mass : α) : Particle α :=
  { p with mass := mass, radius := radiusFn mass }

/-- Go `math.Min` over `ℚ` (NaN is impossible in `ℚ`). -/
def goMin (x y : ℚ) : ℚ := min x y

/-- Go `math.Max` over `ℚ`. -/
def goMax (x y : ℚ) : ℚ := max x y

/-- `Particle.SetCloseCharge` (particles.go:179): clamp to `[-1, 1]` and
store.  The colour-proxy writes are not modelled. -/
def Particle.SetCloseCharge (p : Particle ℚ) (closeCharge : ℚ) : Particle ℚ :=
  { p with closeCharge := goMax (-1) (goMin closeCharge 1) }

/-- `Particle.SetFarCharge` (particles.go:206): clamp to `[0, 1]` and
store.  The alpha-proxy write is not modelled. -/
def Particle.SetFarCharge (p : Particle ℚ) (farCharge : ℚ) : Particle ℚ :=
  { p with farCharge := goMax 0 (goMin farCharge 1) }

/-- `Particle.SetVelocity`. -/
def Particle.SetVelocity (p : Particle α) (v : Vec α) : Particle α :=
  { p with velocity := v }

/-- `Particle.SetPosition`. -/
def Particle.SetPosition (p : Particle α) (v : Vec α) : Particle α :=
  { p with position := v }

/-- `Particle.SetTrackHistory`. -/
def Particle.SetTrackHistory (p : Particle α) (b : Bool) : Particle α :=
  { p with trackHistory := b }

/-- `Particle.SetHistorySize` (particles.go:278): stores the new size and
nothing else — in particular it does not truncate the buffer. -/
def Particle.SetHistorySize (p : Particle α) (n : ℤ) : Particle α :=
  { p with historySize := n }

/-- `Particle.SetPositionHistory`. -/
def Particle.SetPositionHistory (p : Particle α) (h : List (Vec α)) : Particle α :=
  { p with positionHistory := h }

/-- `NewParticle` (particles.go:84) followed by `initializeWithValues`:
fresh position/velocity, charges clamped through the setters, radius from
the mass, empty history and `MergingWith`, all ephemeral state clear.
`id` models the address of the freshly allocated particle. -/
def NewParticle (radiusFn : ℚ → ℤ) (id : ℕ) (mass closeCharge farCharge x y : ℚ) :
    Particle ℚ :=
  let base : Particle ℚ :=
    { id := id
      mass := 0, closeCharge := 0, farCharge := 0
      position := (x, y)
      velocity := (0, 0)
      radius := 0
      trackHistory := false
      historySize := 0
      positionHistory := []
      merging := false
      mergingWith := []
      bouncing := false
      bouncingAgainst := none }
  ((base.SetMass radiusFn mass).SetCloseCharge closeCharge).SetFarCharge farCharge

/-- `Particle.Clone` (particles.go:95): rebuild via `NewParticle` from
mass, charges and position only, then copy the velocity.  History
settings, the history buffer and all merge/bounce state are not copied.
`id` is the address of the fresh copy. -/
def Particle.Clone (radiusFn : ℚ → ℤ) (id : ℕ) (p : Particle ℚ) : Particle ℚ :=
  (NewParticle radiusFn id p.mass p.closeCharge p.farCharge
    p.position.1 p.position.2).SetVelocity p.velocity

/-- `Particle.UpdatePosition` (particles.go:229): optionally append the
current position to the history (evicting a single oldest entry when the
buffer then exceeds `historySize`), then add the velocity to the position. -/
def Particle.UpdatePosition (ops : NumOps α) (p : Particle α) : Particle α :=
  let p1 :=
    if p.trackHistory then
      let h := p.positionHistory ++ [p.position]
      if (h.length : ℤ) > p.historySize then
        p.SetPositionHistory (h.drop 1)
      else
        p.SetPositionHistory h
    else p
  p1.SetPosition (vadd ops p1.position p1.velocity)

/-! ## Engine configuration

`physics.EngineData` minus the roster (modelled separately as a list). -/

structure EngineData (α : Type) where
  GravityStrength : α
  CloseChargeStrength : α
  FarChargeStrength : α
  EnvironmentSize : ℤ
  AllowMerge : Bool
  WallBounce : Bool
  bounceCompleteDistFactor : α
  mergeMassRatioThreshold : α
  mergeCloseChargeThreshold : α

deriving instance DecidableEq for EngineData
deriving instance Repr for EngineData

/-- `EngineData.Initialize` (physics package): the default configuration. -/
def initializeEngine : EngineData ℚ :=
  { GravityStrength := 15
    CloseChargeStrength := 150000000
    FarChargeStrength := Rat.divInt 15 2
    EnvironmentSize := 800
    AllowMerge := true
    WallBounce := true
    bounceCompleteDistFactor := Rat.divInt 3 2
    mergeMassRatioThreshold := Rat.divInt 5 2
    mergeCloseChargeThreshold := Rat.divInt 1 4 }

/-! ## The velocity phase: `updateParticleVelocities`

particle_update.go:197-323.  The roster is a list of particles; the Go
`for ... range` loops over the (unmodified) slice become folds over
`List.range roster.length`, and the in-place mutations through the
`*Particle` pointers become `List.set` at the corresponding index.
Pointer equality `p == o` becomes equality of `id`s (roster ids are kept
distinct by construction). -/

/-- Placeholder particle for out-of-range lookups (never reached: all
indices come from `List.range roster.length`). -/
def dummyP (ops : NumOps α) : Particle α :=
  { id := 0, mass := ops.zero, closeCharge := ops.zero, farCharge := ops.zero
    position := vzero ops, velocity := vzero ops, radius := 0
    trackHistory := false, historySize := 0, positionHistory := []
    merging := false, mergingWith := [], bouncing := false,
    bouncingAgainst := none }

/-- Indexed read from the roster (`Engine.Particles[i]`). -/
def getP (ops : NumOps α) (l : List (Particle α)) (i : ℕ) : Particle α :=
  l.getD i (dummyP ops)

/-- `math.Pow(x, 3)` as used for the gravity denominator. -/
def pow3 (ops : NumOps α) (x : α) : α := ops.mul (ops.mul x x) x

/-- `math.Pow(x, 4)` as used for the close-charge denominator. -/
def pow4 (ops : NumOps α) (x : α) : α := ops.mul (ops.mul (ops.mul x x) x) x

/-- The `massRatio` local of particle_update.go:233-240: declared zero and
only computed when merging is allowed. -/
def massRatioOf (ops : NumOps α) (cfg : EngineData α) (p o : Particle α) : α :=
  if cfg.AllowMerge then
    if ops.lt o.mass p.mass then ops.div p.mass o.mass
    else ops.div o.mass p.mass
  else ops.zero

/-- The merge test of particle_update.go:244-246: merging enabled, mass
ratio above the threshold, and the close charges either of opposite sign
bit or small enough in combined magnitude. -/
def mergeCondition (ops : NumOps α) (cfg : EngineData α) (p o : Particle α) : Bool :=
  cfg.AllowMerge && ops.lt cfg.mergeMassRatioThreshold (massRatioOf ops cfg p o) &&
    (decide (ops.signbit p.closeCharge ≠ ops.signbit o.closeCharge) ||
      ops.lt (ops.add (ops.abs p.closeCharge) (ops.abs o.closeCharge))
        cfg.mergeCloseChargeThreshold)

/-- The new-collision block of particle_update.go:232-286: on a merge,
mark `p`, add `o` to its `MergingWith`, and symmetrically mark `o` unless
`p` is already in `o`'s set; otherwise bounce `p` off the axis the pair
is moving along most, recording the bounce state on `p` only. -/
def resolveNewCollision (ops : NumOps α) (cfg : EngineData α)
    (roster : List (Particle α)) (pi oi : ℕ) : List (Particle α) :=
  let p := getP ops roster pi
  let o := getP ops roster oi
  if mergeCondition ops cfg p o then
    let p1 := { p with merging := true, mergingWith := insertId o.id p.mergingWith }
    let o1 :=
      if memberId p.id o.mergingWith then o
      else { o with merging := true, mergingWith := insertId p.id o.mergingWith }
    (roster.set pi p1).set oi o1
  else
    let n : Vec α :=
      if ops.lt (ops.add (ops.abs p.velocity.2) (ops.abs o.velocity.2))
          (ops.add (ops.abs p.velocity.1) (ops.abs o.velocity.1)) then
        (ops.zero, ops.one)
      else (ops.one, ops.zero)
    let scale := vdot ops p.velocity n
    let scale2 := ops.mul scale (ops.ofInt 2)
    let p1 := { p with
      bouncing := true
      bouncingAgainst := some o.id
      velocity := vsub ops p.velocity (vscale ops scale2 n) }
    roster.set pi p1

/-- One iteration of the inner loop of `updateParticleVelocities`
(particle_update.go:211-312) for fixed `p` (at index `pi`) against `o`
(at index `oi`): skip self and merge partners, complete a separated
bounce, classify a new collision, or accumulate the three force
accelerations (incrementing the contributing count). -/
def velInnerStep (ops : NumOps α) (magFn : Vec α → α) (cfg : EngineData α)
    (pi : ℕ) (st : List (Particle α) × Vec α × Vec α × Vec α × ℕ) (oi : ℕ) :
    List (Particle α) × Vec α × Vec α × Vec α × ℕ :=
  let (roster, g, c, f, ct) := st
  let p := getP ops roster pi
  let o := getP ops roster oi
  if memberId o.id p.mergingWith || p.id == o.id then st
  else
    let v := vsub ops p.position o.position
    let mag := magFn v
    if p.bouncing && p.bouncingAgainst == some o.id then
      let roster1 :=
        if ops.lt (ops.mul cfg.bounceCompleteDistFactor
            (ops.ofInt (p.radius + o.radius))) mag then
          roster.set pi { p with bouncing := false }
        else roster
      (roster1, g, c, f, ct)
    else if !(p.bouncing && p.bouncingAgainst == some o.id) &&
        ops.lt mag (ops.ofInt (p.radius + o.radius)) then
      (resolveNewCollision ops cfg roster pi oi, g, c, f, ct)
    else
      let vg := vscale ops
        (ops.div (ops.mul (ops.mul cfg.GravityStrength o.mass) (ops.ofInt (-1)))
          (pow3 ops mag)) v
      let vc := vscale ops
        (ops.div (ops.mul (ops.mul cfg.CloseChargeStrength p.closeCharge) o.closeCharge)
          (ops.mul p.mass (pow4 ops mag))) v
      let vf := vscale ops
        (ops.div (ops.mul (ops.mul (ops.mul cfg.FarChargeStrength p.farCharge)
            o.farCharge) (ops.ofInt (-1))) p.mass) v
      (roster, vadd ops g vg, vadd ops c vc, vadd ops f vf, ct + 1)

/-- One iteration of the outer loop of `updateParticleVelocities`
(particle_update.go:201-322): run the inner loop for particle `pi`, then
average the accumulated accelerations by the contributing count (an
unguarded `1.0 / float64(ct)`) and add them to the particle's velocity. -/
def velOuterStep (ops : NumOps α) (magFn : Vec α → α) (cfg : EngineData α)
    (roster : List (Particle α)) (pi : ℕ) : List (Particle α) :=
  let init := (roster, vzero ops, vzero ops, vzero ops, 0)
  let res := (List.range roster.length).foldl (velInnerStep ops magFn cfg pi) init
  let (roster1, g, c, f, ct) := res
  let factor := ops.div ops.one (ops.ofInt (ct : ℤ))
  let g1 := vscale ops factor g
  let c1 := vscale ops factor c
  let f1 := vscale ops factor f
  let p := getP ops roster1 pi
  roster1.set pi
    (p.SetVelocity (vadd ops (vadd ops (vadd ops p.velocity g1) c1) f1))

/-- `updateParticleVelocities` (particle_update.go:197): for every
particle in roster order, accumulate and apply the averaged force
accelerations, handling bounce completion and new collisions inline. -/
def updateParticleVelocities (ops : NumOps α) (magFn : Vec α → α)
    (cfg : EngineData α) (roster : List (Particle α)) : List (Particle α) :=
  (List.range roster.length).foldl (velOuterStep ops magFn cfg) roster

/-- `updateParticlePositions` (particle_update.go:327). -/
def updateParticlePositions (ops : NumOps α) (roster : List (Particle α)) :
    List (Particle α) :=
  roster.map (Particle.UpdatePosition ops)

/-! ## The per-tick sort (particle_update.go:46-48)

The source calls `sort.Slice(Engine.Particles, less)` with
`less i j := mass i > mass j`.  `sort.Slice` is Go standard-library code
(outside this repository) whose algorithm varies with the toolchain
version; its documented contract is that the slice ends up sorted by
`less` and that the sort is NOT guaranteed to be stable.  The contract is
stated as the relation `sortSliceMassDescPost` below; the executable tick
model realises the contract with a concrete insertion sort (one
implementation permitted by the contract). -/

/-- Modelled from the spec: the documented postcondition of
`sort.Slice(particles, func(i, j) { mass i > mass j })` — the result is
a permutation of the input that is sorted in non-increasing mass order.
(Stability is deliberately absent: Go documents `sort.Slice` as not
guaranteed stable; the algorithm itself is standard-library code not in
this repository.) -/
def sortSliceMassDescPost (before after : List (Particle ℚ)) : Prop :=
  after.Perm before ∧ after.Pairwise (fun a b => b.mass ≤ a.mass)

/-- Insert into a mass-descending list, before the first element that is
not strictly heavier.  Used by `sortByMassDesc`. -/
def insertByMassDesc (p : Particle ℚ) : List (Particle ℚ) → List (Particle ℚ)
  | [] => [p]
  | q :: rest =>
      if q.mass ≤ p.mass then p :: q :: rest else q :: insertByMassDesc p rest

/-- Mass-descending insertion sort: the realization of
`sortSliceMassDescPost` used by the executable tick model.  (This
realization happens to be stable; the contract itself does not require
stability, which is the subject of one of the claims.) -/
def sortByMassDesc : List (Particle ℚ) → List (Particle ℚ)
  | [] => []
  | p :: rest => insertByMassDesc p (sortByMassDesc rest)

/-! ## Merge aggregation (particle_update.go:50-143) -/

/-- Look up a particle by identity (dereferencing a stored `*Particle`). -/
def findById (roster : List (Particle ℚ)) (oid : ℕ) : Particle ℚ :=
  (roster.find? (fun q => q.id = oid)).getD (dummyP qOps)

/-- Apply an update through a stored `*Particle` pointer. -/
def updateById (roster : List (Particle ℚ)) (oid : ℕ)
    (upd : Particle ℚ → Particle ℚ) : List (Particle ℚ) :=
  roster.map (fun q => if q.id = oid then upd q else q)

/-- One partner's contribution in the aggregation loop of
particle_update.go:86-102: accumulate mass, mass-weighted charges and
position, and the velocity term `o.velocity · (o.mass / p.mass)` (`p`
is the unchanged root). -/
def aggStep (p : Particle ℚ) (a : ℚ × ℚ × ℚ × Vec ℚ × Vec ℚ)
    (o : Particle ℚ) : ℚ × ℚ × ℚ × Vec ℚ × Vec ℚ :=
  (a.1 + o.mass,
    a.2.1 + o.closeCharge * o.mass,
    a.2.2.1 + o.farCharge * o.mass,
    vadd qOps a.2.2.2.1 (vscale qOps o.mass o.position),
    vadd qOps a.2.2.2.2 (vscale qOps (o.mass / p.mass) o.velocity))

/-- The cluster aggregation of particle_update.go:73-117 for a root `p`
with its merge partners: total mass, mass-weighted charge and position
sums (position rescaled by the total mass), the approximate velocity
accumulation `p.velocity + Σ o.velocity · (o.mass / p.mass)`, a new
particle built from the aggregates (charges re-clamped, radius
recomputed), and history configuration copied from the root. -/
def aggregateCluster (radiusFn : ℚ → ℤ) (newId : ℕ) (p : Particle ℚ)
    (partners : List (Particle ℚ)) : Particle ℚ :=
  let init : ℚ × ℚ × ℚ × Vec ℚ × Vec ℚ :=
    (p.mass, p.closeCharge * p.mass, p.farCharge * p.mass,
      vscale qOps p.mass p.position, p.velocity)
  let acc := partners.foldl (aggStep p) init
  let position := vscale qOps (1 / acc.1) acc.2.2.2.1
  let mp := NewParticle radiusFn newId acc.1 (acc.2.1 / acc.1) (acc.2.2.1 / acc.1)
    position.1 position.2
  (((mp.SetVelocity acc.2.2.2.2).SetTrackHistory p.trackHistory).SetHistorySize
    p.historySize).SetPositionHistory p.positionHistory

/-- One iteration of the merger loop (particle_update.go:62-125): a
particle currently `merging` is either a cluster root (non-empty
`MergingWith`: aggregate, delete the reverse edges, schedule the root for
deletion and the merged particle for addition) or an already-consumed
partner (empty `MergingWith`: clear the flag and schedule deletion). -/
def mergeStep (radiusFn : ℚ → ℤ)
    (st : List (Particle ℚ) × List ℕ × List (Particle ℚ) × ℕ) (i : ℕ) :
    List (Particle ℚ) × List ℕ × List (Particle ℚ) × ℕ :=
  let (roster, deleteList, addList, nextId) := st
  let p := getP qOps roster i
  if p.merging then
    if 0 < p.mergingWith.length then
      let partners := p.mergingWith.map (findById roster)
      let roster1 := p.mergingWith.foldl
        (fun r oid => updateById r oid
          (fun o => { o with mergingWith := removeId p.id o.mergingWith }))
        roster
      let merged := aggregateCluster radiusFn nextId p partners
      (roster1, deleteList ++ [i], addList ++ [merged], nextId + 1)
    else
      (roster.set i { p with merging := false }, deleteList ++ [i], addList, nextId)
  else st

/-- Descending insertion into a sorted list of indices. -/
def insertDescNat (i : ℕ) : List ℕ → List ℕ
  | [] => [i]
  | j :: rest => if j < i then i :: j :: rest else j :: insertDescNat i rest

/-- The `sort.Slice(deleteList, >)` of particle_update.go:129-131. -/
def sortDescNat : List ℕ → List ℕ
  | [] => []
  | i :: rest => insertDescNat i (sortDescNat rest)

/-- Swap-with-last-and-truncate removal (particle_update.go:132-137). -/
def removeSwapAt (l : List (Particle ℚ)) (i : ℕ) : List (Particle ℚ) :=
  (l.set i (l.getD (l.length - 1) (dummyP qOps))).dropLast

/-- The merge-handling region of `UpdateParticles`
(particle_update.go:50-143), a no-op unless `AllowMerge`: run the merger
loop, delete the consumed particles (largest index first, by
swap-with-last), then append the newly created merged particles. -/
def handleMergers (radiusFn : ℚ → ℤ) (cfg : EngineData ℚ) (nextId : ℕ)
    (roster : List (Particle ℚ)) : List (Particle ℚ) :=
  if cfg.AllowMerge then
    let res := (List.range roster.length).foldl (mergeStep radiusFn)
      (roster, [], [], nextId)
    let (roster1, deleteList, addList, _) := res
    let roster2 := (sortDescNat deleteList).foldl removeSwapAt roster1
    roster2 ++ addList
  else roster

/-! ## Wall bounce (particle_update.go:145-189) -/

/-- Go's `int(x)` conversion from `float64`: truncation toward zero. -/
def gotrunc (x : ℚ) : ℤ := if 0 ≤ x then ⌊x⌋ else ⌈x⌉

/-- Whether the particle's circle extends beyond the left or right wall,
as tested (after `int` truncation) at particle_update.go:154. -/
def xWallViolated (cfg : EngineData ℚ) (p : Particle ℚ) : Prop :=
  gotrunc p.position.1 - p.radius < 0 ∨
    gotrunc p.position.1 + p.radius > cfg.EnvironmentSize - 1

/-- Whether the particle's circle extends beyond the top or bottom wall
(particle_update.go:168). -/
def yWallViolated (cfg : EngineData ℚ) (p : Particle ℚ) : Prop :=
  gotrunc p.position.2 - p.radius < 0 ∨
    gotrunc p.position.2 + p.radius > cfg.EnvironmentSize - 1

instance (cfg : EngineData ℚ) (p : Particle ℚ) : Decidable (xWallViolated cfg p) := by
  unfold xWallViolated; infer_instance

instance (cfg : EngineData ℚ) (p : Particle ℚ) : Decidable (yWallViolated cfg p) := by
  unfold yWallViolated; infer_instance

/-- The per-particle body of the wall-bounce region
(particle_update.go:151-187): resolve the horizontal axis if violated
(clamp the x position into `[radius, EnvironmentSize - radius - 1]` and
reflect the velocity across the vertical line), otherwise resolve the
vertical axis if violated; at most one axis is resolved per tick. -/
def wallStep (cfg : EngineData ℚ) (p : Particle ℚ) : Particle ℚ :=
  if xWallViolated cfg p then
    let scale := vdot qOps p.velocity (1, 0)
    let p1 := p.SetPosition
      (goMax (p.radius : ℚ)
        (goMin p.position.1 ((cfg.EnvironmentSize : ℚ) - (p.radius : ℚ) - 1)),
        p.position.2)
    p1.SetVelocity (vsub qOps p1.velocity (vscale qOps (scale * 2) (1, 0)))
  else if yWallViolated cfg p then
    let scale := vdot qOps p.velocity (0, 1)
    let p1 := p.SetPosition
      (p.position.1,
        goMax (p.radius : ℚ)
          (goMin p.position.2 ((cfg.EnvironmentSize : ℚ) - (p.radius : ℚ) - 1)))
    p1.SetVelocity (vsub qOps p1.velocity (vscale qOps (scale * 2) (0, 1)))
  else p

/-! ## The tick (`UpdateParticles`, particle_update.go:38-192)

The merge-event summary returned to the GUI (`mergeOccurred`,
`mergeMultiple`, `mergeSource`, `mergedResult`) is presentation data not
referenced by any claim and is not modelled.  `nextId` supplies the
addresses of freshly allocated merged particles. -/

def UpdateParticles (magFn : Vec ℚ → ℚ) (radiusFn : ℚ → ℤ)
    (cfg : EngineData ℚ) (nextId : ℕ) (roster : List (Particle ℚ)) :
    List (Particle ℚ) :=
  let r1 := updateParticleVelocities qOps magFn cfg roster
  let r2 := updateParticlePositions qOps r1
  let r3 := sortByMassDesc r2
  let r4 := handleMergers radiusFn cfg nextId r3
  if cfg.WallBounce then r4.map (wallStep cfg) else r4

/-! ## Reset and configuration events -/

/-- `RestoreInitialParticleStates` (particle_update.go:28): rebuild the
roster from clones of the stored initial snapshot (fresh allocations,
modelled by indices as ids). -/
def RestoreInitialParticleStates (radiusFn : ℚ → ℤ)
    (initialParticles : List (Particle ℚ)) : List (Particle ℚ) :=
  (List.range initialParticles.length).map
    (fun i => (getP qOps initialParticles i).Clone radiusFn i)

/-- The per-particle body of `HistoryTrailLengthChangedEvent`
(event_handlers.go:179-188): truncate the history to its newest `value`
entries if it is longer, then store the new `historySize`. -/
def historyLengthChangedParticle (value : ℤ) (p : Particle ℚ) : Particle ℚ :=
  let p1 :=
    if (p.positionHistory.length : ℤ) > value then
      p.SetPositionHistory
        (p.positionHistory.drop ((p.positionHistory.length : ℤ) - value).toNat)
    else p
  p1.SetHistorySize value

/-- `HistoryTrailLengthChangedEvent` over the roster (the
`State.HistoryLength` bookkeeping is GUI state, not modelled). -/
def HistoryTrailLengthChangedEvent (value : ℤ)
    (roster : List (Particle ℚ)) : List (Particle ℚ) :=
  roster.map (historyLengthChangedParticle value)

/-- `EnvironmentSizeChangedEvent` (event_handlers.go:100-106), restricted
to its effect on the engine configuration: the submitted value is stored
unconditionally (the paused-mode particle regeneration touches the
roster, not the configuration). -/
def EnvironmentSizeChangedEvent (cfg : EngineData ℚ) (value : ℤ) :
    EngineData ℚ :=
  { cfg with EnvironmentSize := value }

/-! ## Concrete instantiations used by witnesses and counterexamples -/

/-- Computable stand-in for `vector.Magnitude` used to instantiate the
`magFn` parameter at concrete inputs: exact wherever the squared
magnitude is a perfect rational square (all witness inputs are chosen
so), junk elsewhere. -/
def ratSqrt (q : ℚ) : ℚ := (Nat.sqrt q.num.toNat : ℚ) / (Nat.sqrt q.den : ℚ)

/-- Magnitude stand-in over `Vec ℚ`. -/
def magQ (v : Vec ℚ) : ℚ := ratSqrt (v.1 * v.1 + v.2 * v.2)

/-- Computable stand-in for the radius computation
`int(max(round(sqrt(mass)/(2*sqrt(pi))), 1))` used to instantiate
`radiusFn` in witnesses (an integer approximation of `sqrt(m/(4*pi))`,
floored at 1 like the source). -/
def radiusApproxFn (m : ℚ) : ℤ :=
  max (Nat.sqrt ((m.num.toNat * 7) / (88 * m.den)) : ℤ) 1

/-- Concrete particle constructor for witnesses: explicit primary fields,
empty history, no ephemeral collision state. -/
def plainParticle (id : ℕ) (m : ℚ) (r : ℤ) (px py vx vy cc fc : ℚ) :
    Particle ℚ :=
  { id := id, mass := m, closeCharge := cc, farCharge := fc,
    position := (px, py), velocity := (vx, vy), radius := r,
    trackHistory := false, historySize := 0, positionHistory := [],
    merging := false, mergingWith := [], bouncing := false,
    bouncingAgainst := none }

/-- Two equal-mass particles distinguished by identity and position. -/
def twinA : Particle ℚ := plainParticle 1 5 1 10 10 0 0 0 0

/-- The second of the equal-mass pair. -/
def twinB : Particle ℚ := plainParticle 2 5 1 20 20 0 0 0 0

/-- The default engine configuration transported to the binary64 model. -/
def gDefaultEngine : EngineData GFloat :=
  { GravityStrength := .fin 15
    CloseChargeStrength := .fin 150000000
    FarChargeStrength := .fin (Rat.divInt 15 2)
    EnvironmentSize := 800
    AllowMerge := true
    WallBounce := true
    bounceCompleteDistFactor := .fin (Rat.divInt 3 2)
    mergeMassRatioThreshold := .fin (Rat.divInt 5 2)
    mergeCloseChargeThreshold := .fin (Rat.divInt 1 4) }

/-- A roster of one: the only particle of the failing input of the
zero-neighbour averaging defect. -/
def loneParticle : Particle GFloat :=
  { id := 1, mass := .fin 100, closeCharge := .fin (1/2), farCharge := .fin (1/2)
    position := (.fin 10, .fin 20), velocity := (.fin 3, .fin 4), radius := 3
    trackHistory := false, historySize := 0, positionHistory := []
    merging := false, mergingWith := [], bouncing := false
    bouncingAgainst := none }

/-!
# Supporting lemmas
-/

/-- Membership in an insertion. -/
lemma mem_insertByMassDesc {x p : Particle ℚ} {l : List (Particle ℚ)} :
    x ∈ insertByMassDesc p l ↔ x = p ∨ x ∈ l := by
  induction l with
  | nil => simp [insertByMassDesc]
  | cons q rest ih =>
      by_cases h : q.mass ≤ p.mass
      · simp [insertByMassDesc, h]
      · simp only [insertByMassDesc, if_neg h, List.mem_cons, ih]
        tauto

/-- Insertion produces a permutation of consing. -/
lemma insertByMassDesc_perm (p : Particle ℚ) (l : List (Particle ℚ)) :
    (insertByMassDesc p l).Perm (p :: l) := by
  induction l with
  | nil => simp [insertByMassDesc]
  | cons q rest ih =>
      by_cases h : q.mass ≤ p.mass
      · simp [insertByMassDesc, h]
      · have h1 : insertByMassDesc p (q :: rest) = q :: insertByMassDesc p rest := by
          simp [insertByMassDesc, h]
        rw [h1]
        exact (ih.cons q).trans (List.Perm.swap p q rest)

/-- The insertion sort permutes its input. -/
lemma sortByMassDesc_perm (l : List (Particle ℚ)) : (sortByMassDesc l).Perm l := by
  induction l with
  | nil => exact List.Perm.refl _
  | cons p rest ih => exact (insertByMassDesc_perm p _).trans (ih.cons p)

/-- Insertion preserves non-increasing mass order. -/
lemma insertByMassDesc_pairwise {p : Particle ℚ} {l : List (Particle ℚ)}
    (h : l.Pairwise (fun a b => b.mass ≤ a.mass)) :
    (insertByMassDesc p l).Pairwise (fun a b => b.mass ≤ a.mass) := by
  induction l with
  | nil => simp [insertByMassDesc]
  | cons q rest ih =>
      rcases List.pairwise_cons.mp h with ⟨hq, hrest⟩
      by_cases hc : q.mass ≤ p.mass
      · simp only [insertByMassDesc, if_pos hc]
        refine List.pairwise_cons.mpr ⟨?_, h⟩
        intro x hx
        rcases List.mem_cons.mp hx with rfl | hx
        · exact hc
        · exact le_trans (hq x hx) hc
      · simp only [insertByMassDesc, if_neg hc]
        refine List.pairwise_cons.mpr ⟨?_, ih hrest⟩
        intro x hx
        rcases mem_insertByMassDesc.mp hx with rfl | hx
        · exact le_of_lt (lt_of_not_le hc)
        · exact hq x hx

/-- The insertion sort produces non-increasing mass order. -/
lemma sortByMassDesc_pairwise (l : List (Particle ℚ)) :
    (sortByMassDesc l).Pairwise (fun a b => b.mass ≤ a.mass) := by
  induction l with
  | nil => simp [sortByMassDesc]
  | cons p rest ih => exact insertByMassDesc_pairwise ih

/-- A clone starts with every non-copied field at its fresh default:
empty history, history tracking off and size zero, no merge or bounce
state. -/
lemma clone_defaults (radiusFn : ℚ → ℤ) (id : ℕ) (p : Particle ℚ) :
    (p.Clone radiusFn id).positionHistory = [] ∧
    (p.Clone radiusFn id).trackHistory = false ∧
    (p.Clone radiusFn id).historySize = 0 ∧
    (p.Clone radiusFn id).mergingWith = [] ∧
    (p.Clone radiusFn id).bouncing = false ∧
    (p.Clone radiusFn id).merging = false ∧
    (p.Clone radiusFn id).bouncingAgainst = none := by
  simp [Particle.Clone, NewParticle, Particle.SetMass, Particle.SetCloseCharge,
    Particle.SetFarCharge, Particle.SetVelocity]

/-- A clone of a particle whose charges are inside their clamped ranges
copies mass, charges, position and velocity exactly. -/
lemma clone_copies (radiusFn : ℚ → ℤ) (id : ℕ) (p : Particle ℚ)
    (hcc1 : -1 ≤ p.closeCharge) (hcc2 : p.closeCharge ≤ 1)
    (hfc1 : 0 ≤ p.farCharge) (hfc2 : p.farCharge ≤ 1) :
    (p.Clone radiusFn id).mass = p.mass ∧
    (p.Clone radiusFn id).closeCharge = p.closeCharge ∧
    (p.Clone radiusFn id).farCharge = p.farCharge ∧
    (p.Clone radiusFn id).position = p.position ∧
    (p.Clone radiusFn id).velocity = p.velocity := by
  refine ⟨rfl, ?_, ?_, ?_, rfl⟩
  · show goMax (-1) (goMin p.closeCharge 1) = p.closeCharge
    rw [goMin, min_eq_left hcc2, goMax, max_eq_right hcc1]
  · show goMax 0 (goMin p.farCharge 1) = p.farCharge
    rw [goMin, min_eq_left hfc2, goMax, max_eq_right hfc1]
  · show ((p.position.1, p.position.2) : Vec ℚ) = p.position
    exact Prod.mk.eta

/-- Indexing the restored roster selects the clone of the corresponding
initial particle. -/
lemma getP_restore (radiusFn : ℚ → ℤ) (initial : List (Particle ℚ)) (i : ℕ)
    (h : i < initial.length) :
    getP qOps (RestoreInitialParticleStates radiusFn initial) i =
      (getP qOps initial i).Clone radiusFn i := by
  simp [RestoreInitialParticleStates, getP, List.getD, List.getElem?_map,
    List.getElem?_range h]

/-- Indexed roster reads at in-range indices are members. -/
lemma getP_mem (ops : NumOps α) (l : List (Particle α)) (i : ℕ)
    (h : i < l.length) : getP ops l i ∈ l := by
  have h1 : l.getD i (dummyP ops) = l[i] := List.getD_eq_getElem l (dummyP ops) h
  show l.getD i (dummyP ops) ∈ l
  rw [h1]
  exact List.getElem_mem h

/-- Sum of a negated map. -/
lemma sum_map_neg (l : List (Particle ℚ)) (f : Particle ℚ → ℚ) :
    (l.map (fun o => -(f o))).sum = -((l.map f).sum) := by
  induction l with
  | nil => simp
  | cons o rest ih => simp [ih]; ring

/-- The first component of the aggregation fold is the running mass sum. -/
lemma aggFold_mass (p : Particle ℚ) (partners : List (Particle ℚ))
    (a : ℚ × ℚ × ℚ × Vec ℚ × Vec ℚ) :
    (partners.foldl (aggStep p) a).1 = a.1 + (partners.map Particle.mass).sum := by
  induction partners generalizing a with
  | nil => simp
  | cons o rest ih =>
      rw [List.foldl_cons, ih]
      simp [aggStep]
      ring

/-- The second component is the running mass-weighted close-charge sum. -/
lemma aggFold_cc (p : Particle ℚ) (partners : List (Particle ℚ))
    (a : ℚ × ℚ × ℚ × Vec ℚ × Vec ℚ) :
    (partners.foldl (aggStep p) a).2.1 =
      a.2.1 + (partners.map (fun o => o.closeCharge * o.mass)).sum := by
  induction partners generalizing a with
  | nil => simp
  | cons o rest ih =>
      rw [List.foldl_cons, ih]
      simp [aggStep]
      ring

/-- The third component is the running mass-weighted far-charge sum. -/
lemma aggFold_fc (p : Particle ℚ) (partners : List (Particle ℚ))
    (a : ℚ × ℚ × ℚ × Vec ℚ × Vec ℚ) :
    (partners.foldl (aggStep p) a).2.2.1 =
      a.2.2.1 + (partners.map (fun o => o.farCharge * o.mass)).sum := by
  induction partners generalizing a with
  | nil => simp
  | cons o rest ih =>
      rw [List.foldl_cons, ih]
      simp [aggStep]
      ring

/-- `qOps.lt` decides strict order on `ℚ`. -/
lemma qlt_iff (x y : ℚ) : qOps.lt x y = true ↔ x < y := by
  simp [qOps]

/-- `qOps.lt` is false exactly on `≥`. -/
lemma qlt_false_iff (x y : ℚ) : qOps.lt x y = false ↔ y ≤ x := by
  simp [qOps, not_lt]

/-- Inserting a key makes it a member. -/
lemma memberId_insertId_self (i : ℕ) (s : List ℕ) :
    memberId i (insertId i s) = true := by
  by_cases h : memberId i s
  · simp [insertId, h]
  · simp only [insertId, h, if_neg, Bool.false_eq_true, if_false]
    simp [memberId, List.elem_iff]

/-- With merging allowed, the computed mass ratio is
`max(mass p, mass o) / min(mass p, mass o)`. -/
lemma massRatioOf_eq_max_min (cfg : EngineData ℚ) (p o : Particle ℚ)
    (hA : cfg.AllowMerge = true) :
    massRatioOf qOps cfg p o = goMax p.mass o.mass / goMin p.mass o.mass := by
  by_cases h : o.mass < p.mass
  · have h1 : qOps.lt o.mass p.mass = true := (qlt_iff _ _).mpr h
    rw [massRatioOf, if_pos hA, if_pos h1, goMax, goMin,
      max_eq_left (le_of_lt h), min_eq_right (le_of_lt h)]
    rfl
  · have h1 : qOps.lt o.mass p.mass = false := by
      rw [qlt_false_iff]
      exact le_of_not_lt h
    rw [massRatioOf, if_pos hA, h1, goMax, goMin]
    simp only [Bool.false_eq_true, if_false]
    rw [max_eq_right (le_of_not_lt h), min_eq_left (le_of_not_lt h)]
    rfl

/-- Index 0 of a two-particle roster. -/
lemma getP_pair_zero (x y : Particle ℚ) : getP qOps [x, y] 0 = x := rfl

/-- Index 1 of a two-particle roster. -/
lemma getP_pair_one (x y : Particle ℚ) : getP qOps [x, y] 1 = y := rfl

/-- Evaluating the two-particle roster after the merge branch of the
collision resolution. -/
lemma resolveNewCollision_merge (cfg : EngineData ℚ) (p o : Particle ℚ)
    (hm : mergeCondition qOps cfg p o = true) :
    resolveNewCollision qOps cfg [p, o] 0 1 =
      [{ p with merging := true, mergingWith := insertId o.id p.mergingWith },
        if memberId p.id o.mergingWith then o
        else { o with merging := true, mergingWith := insertId p.id o.mergingWith }] := by
  have hp : getP qOps [p, o] 0 = p := rfl
  have ho : getP qOps [p, o] 1 = o := rfl
  rw [resolveNewCollision, hp, ho, if_pos hm]
  rfl

/-- Evaluating the two-particle roster after the bounce branch of the
collision resolution. -/
lemma resolveNewCollision_bounce (cfg : EngineData ℚ) (p o : Particle ℚ)
    (hm : mergeCondition qOps cfg p o = false) :
    ∃ v : Vec ℚ,
      resolveNewCollision qOps cfg [p, o] 0 1 =
        [{ p with bouncing := true, bouncingAgainst := some o.id, velocity := v }, o] := by
  have hp : getP qOps [p, o] 0 = p := rfl
  have ho : getP qOps [p, o] 1 = o := rfl
  rw [resolveNewCollision, hp, ho]
  simp only [hm, Bool.false_eq_true, if_false]
  exact ⟨_, rfl⟩

/-!
## Parametric phase invariants

The tick phases mutate particles in a small number of shapes; any
predicate preserved by those shapes is preserved by the phase.  These
lemmas carry one obligation per mutation shape and are instantiated with
the history bound (C4), the merge-state invariants (C9) and the radius
bound (C5). -/

/-- A membership proof through `List.set`: every element of the updated
list satisfies `P` if the original elements do and the written value
does (when the write lands in range). -/
lemma mem_set_invariant {P : Particle ℚ → Prop} {l : List (Particle ℚ)}
    {i : ℕ} {x q : Particle ℚ}
    (hall : ∀ p ∈ l, P p) (hx : i < l.length → P x) (hq : q ∈ l.set i x) :
    P q := by
  by_cases hi : i < l.length
  · rcases List.mem_or_eq_of_mem_set hq with h | rfl
    · exact hall _ h
    · exact hx hi
  · rw [List.set_eq_of_length_le (le_of_not_lt hi)] at hq
    exact hall _ hq

/-- A true merge test implies merging is enabled. -/
lemma mergeCondition_allowMerge {cfg : EngineData ℚ} {p o : Particle ℚ}
    (h : mergeCondition qOps cfg p o = true) : cfg.AllowMerge = true := by
  rw [mergeCondition] at h
  simp only [Bool.and_eq_true] at h
  exact h.1.1

/-- Collision resolution preserves any predicate stable under the merge
marking (only reachable with merging enabled) and the bounce update. -/
lemma resolveNewCollision_invariant {P : Particle ℚ → Prop}
    (cfg : EngineData ℚ)
    (hP2 : cfg.AllowMerge = true → ∀ p oid, P p →
      P { p with merging := true, mergingWith := insertId oid p.mergingWith })
    (hP3 : ∀ p oid v, P p →
      P { p with bouncing := true, bouncingAgainst := some oid, velocity := v })
    (roster : List (Particle ℚ)) (pi oi : ℕ)
    (hall : ∀ p ∈ roster, P p) :
    ∀ q ∈ resolveNewCollision qOps cfg roster pi oi, P q := by
  intro q hq
  rw [resolveNewCollision] at hq
  by_cases hm : mergeCondition qOps cfg (getP qOps roster pi) (getP qOps roster oi) = true
  · rw [if_pos hm] at hq
    have hA := mergeCondition_allowMerge hm
    simp only [] at hq
    refine mem_set_invariant (fun p hp => mem_set_invariant hall
      (fun hpi => hP2 hA _ _ (hall _ (getP_mem qOps roster pi hpi))) hp)
      (fun hoi => ?_) hq
    have hoi' : oi < roster.length := by
      simpa using hoi
    have hPo : P (getP qOps roster oi) := hall _ (getP_mem qOps roster oi hoi')
    by_cases hmem : memberId (getP qOps roster pi).id (getP qOps roster oi).mergingWith
    · simpa [hmem] using hPo
    · simp only [hmem, Bool.false_eq_true, if_false]
      exact hP2 hA _ _ hPo
  · rw [if_neg hm] at hq
    exact mem_set_invariant hall
      (fun hpi => hP3 _ _ _ (hall _ (getP_mem qOps roster pi hpi))) hq

/-- The roster component after one inner force-loop step is the input
roster, a bounce-completion write, or the collision resolution. -/
lemma velInnerStep_roster_cases (magFn : Vec ℚ → ℚ) (cfg : EngineData ℚ)
    (pi oi : ℕ) (roster : List (Particle ℚ)) (g c f : Vec ℚ) (ct : ℕ) :
    (velInnerStep qOps magFn cfg pi (roster, g, c, f, ct) oi).1 = roster ∨
    (velInnerStep qOps magFn cfg pi (roster, g, c, f, ct) oi).1 =
      roster.set pi { getP qOps roster pi with bouncing := false } ∨
    (velInnerStep qOps magFn cfg pi (roster, g, c, f, ct) oi).1 =
      resolveNewCollision qOps cfg roster pi oi := by
  rw [velInnerStep]
  by_cases h1 : (memberId (getP qOps roster oi).id (getP qOps roster pi).mergingWith ||
      (getP qOps roster pi).id == (getP qOps roster oi).id) = true
  · simp [h1]
  · rw [Bool.not_eq_true] at h1
    simp only [h1, Bool.false_eq_true, if_false]
    by_cases h2 : ((getP qOps roster pi).bouncing &&
        (getP qOps roster pi).bouncingAgainst == some (getP qOps roster oi).id) = true
    · simp only [h2, if_true]
      by_cases h3 : qOps.lt (qOps.mul cfg.bounceCompleteDistFactor
          (qOps.ofInt ((getP qOps roster pi).radius + (getP qOps roster oi).radius)))
          (magFn (vsub qOps (getP qOps roster pi).position
            (getP qOps roster oi).position)) = true
      · simp [h3]
      · rw [Bool.not_eq_true] at h3
        simp [h3]
    · rw [Bool.not_eq_true] at h2
      simp only [h2, Bool.false_eq_true, if_false]
      by_cases h4 : qOps.lt (magFn (vsub qOps (getP qOps roster pi).position
          (getP qOps roster oi).position))
          (qOps.ofInt ((getP qOps roster pi).radius +
            (getP qOps roster oi).radius)) = true
      · simp [h2, h4]
      · rw [Bool.not_eq_true] at h4
        simp [h2, h4]

/-- One inner force-loop step preserves the predicate (obligations: the
bounce-flag clear, the merge marking under `AllowMerge`, the bounce
update). -/
lemma velInnerStep_invariant {P : Particle ℚ → Prop} (cfg : EngineData ℚ)
    (hP1 : ∀ p, P p → P { p with bouncing := false })
    (hP2 : cfg.AllowMerge = true → ∀ p oid, P p →
      P { p with merging := true, mergingWith := insertId oid p.mergingWith })
    (hP3 : ∀ p oid v, P p →
      P { p with bouncing := true, bouncingAgainst := some oid, velocity := v })
    (magFn : Vec ℚ → ℚ) (pi oi : ℕ)
    (roster : List (Particle ℚ)) (g c f : Vec ℚ) (ct : ℕ)
    (hall : ∀ p ∈ roster, P p) :
    ∀ q ∈ (velInnerStep qOps magFn cfg pi (roster, g, c, f, ct) oi).1, P q := by
  rcases velInnerStep_roster_cases magFn cfg pi oi roster g c f ct with h | h | h <;>
    rw [h]
  · exact hall
  · intro q hq
    exact mem_set_invariant hall
      (fun hpi => hP1 _ (hall _ (getP_mem qOps roster pi hpi))) hq
  · exact resolveNewCollision_invariant cfg hP2 hP3 roster pi oi hall

/-- The inner force loop preserves the predicate and the roster length. -/
lemma velInnerFold_invariant {P : Particle ℚ → Prop} (cfg : EngineData ℚ)
    (hP1 : ∀ p, P p → P { p with bouncing := false })
    (hP2 : cfg.AllowMerge = true → ∀ p oid, P p →
      P { p with merging := true, mergingWith := insertId oid p.mergingWith })
    (hP3 : ∀ p oid v, P p →
      P { p with bouncing := true, bouncingAgainst := some oid, velocity := v })
    (magFn : Vec ℚ → ℚ) (pi : ℕ) (is : List ℕ) :
    ∀ st : List (Particle ℚ) × Vec ℚ × Vec ℚ × Vec ℚ × ℕ,
      (∀ p ∈ st.1, P p) →
      ∀ q ∈ (is.foldl (velInnerStep qOps magFn cfg pi) st).1, P q := by
  induction is with
  | nil => intro st hall; exact hall
  | cons i rest ih =>
      intro st hall
      rw [List.foldl_cons]
      apply ih
      obtain ⟨roster, g, c, f, ct⟩ := st
      exact velInnerStep_invariant cfg hP1 hP2 hP3 magFn pi i roster g c f ct hall

/-- The velocity phase (`updateParticleVelocities`) preserves any
predicate stable under its four mutation shapes. -/
lemma updateParticleVelocities_invariant {P : Particle ℚ → Prop}
    (cfg : EngineData ℚ)
    (hP1 : ∀ p, P p → P { p with bouncing := false })
    (hP2 : cfg.AllowMerge = true → ∀ p oid, P p →
      P { p with merging := true, mergingWith := insertId oid p.mergingWith })
    (hP3 : ∀ p oid v, P p →
      P { p with bouncing := true, bouncingAgainst := some oid, velocity := v })
    (hP4 : ∀ p v, P p → P (p.SetVelocity v))
    (magFn : Vec ℚ → ℚ) (roster : List (Particle ℚ))
    (hall : ∀ p ∈ roster, P p) :
    ∀ q ∈ updateParticleVelocities qOps magFn cfg roster, P q := by
  rw [updateParticleVelocities]
  generalize List.range roster.length = is
  induction is generalizing roster with
  | nil => exact hall
  | cons i rest ih =>
      rw [List.foldl_cons]
      apply ih
      intro q hq
      rw [velOuterStep] at hq
      refine mem_set_invariant (fun p hp => ?_) (fun hpi => ?_) hq
      · exact velInnerFold_invariant cfg hP1 hP2 hP3 magFn i _ _ hall p hp
      · exact hP4 _ _ (velInnerFold_invariant cfg hP1 hP2 hP3 magFn i _ _ hall _
          (getP_mem qOps _ i hpi))

/-- Pointer-targeted updates preserve the predicate. -/
lemma updateById_invariant {P : Particle ℚ → Prop} {l : List (Particle ℚ)}
    {oid : ℕ} {upd : Particle ℚ → Particle ℚ}
    (hupd : ∀ p, P p → P (upd p)) (hall : ∀ p ∈ l, P p) :
    ∀ q ∈ updateById l oid upd, P q := by
  intro q hq
  rcases List.mem_map.mp hq with ⟨p, hp, rfl⟩
  by_cases h : p.id = oid
  · simpa [h] using hupd p (hall p hp)
  · simpa [h] using hall p hp

/-- The reverse-edge deletion loop of the merge aggregation preserves the
predicate. -/
lemma edgeDeletionFold_invariant {P : Particle ℚ → Prop} {pid : ℕ}
    (hmut2 : ∀ p pid2, P p → P { p with mergingWith := removeId pid2 p.mergingWith })
    (ids : List ℕ) :
    ∀ l : List (Particle ℚ), (∀ p ∈ l, P p) →
      ∀ q ∈ ids.foldl (fun r oid => updateById r oid
        (fun o => { o with mergingWith := removeId pid o.mergingWith })) l, P q := by
  induction ids with
  | nil => intro l hall; exact hall
  | cons i rest ih =>
      intro l hall
      rw [List.foldl_cons]
      exact ih _ (updateById_invariant (fun p hp => hmut2 p pid hp) hall)

/-- Swap-with-last removal only keeps elements of the input. -/
lemma removeSwapAt_subset (l : List (Particle ℚ)) (i : ℕ) :
    ∀ q ∈ removeSwapAt l i, q ∈ l := by
  intro q hq
  rw [removeSwapAt] at hq
  have hq1 : q ∈ l.set i (l.getD (l.length - 1) (dummyP qOps)) :=
    List.mem_of_mem_dropLast hq
  rcases List.mem_or_eq_of_mem_set hq1 with h | rfl
  · exact h
  · rcases List.eq_nil_or_concat l with rfl | ⟨l2, a, rfl⟩
    · simp at hq1
    · have hlen : 0 < (l2.concat a).length := by simp
      have h1 : (l2.concat a).getD ((l2.concat a).length - 1) (dummyP qOps) =
          (l2.concat a)[(l2.concat a).length - 1] :=
        List.getD_eq_getElem _ _ (by omega)
      rw [h1]
      exact List.getElem_mem _

/-- The deletion fold only keeps elements of the input. -/
lemma deletionFold_subset (idxs : List ℕ) :
    ∀ l : List (Particle ℚ), ∀ q ∈ idxs.foldl removeSwapAt l, q ∈ l := by
  induction idxs with
  | nil => intro l q hq; exact hq
  | cons i rest ih =>
      intro l q hq
      rw [List.foldl_cons] at hq
      exact removeSwapAt_subset l i _ (ih _ _ hq)

/-- The merge-handling phase preserves any predicate stable under the
merging-flag clear, the reverse-edge deletion, and cluster aggregation
from a root satisfying it. -/
lemma handleMergers_invariant {P : Particle ℚ → Prop} {radiusFn : ℚ → ℤ}
    (hmut1 : ∀ p, P p → P { p with merging := false })
    (hmut2 : ∀ p pid, P p → P { p with mergingWith := removeId pid p.mergingWith })
    (hagg : ∀ nid root partners, P root → P (aggregateCluster radiusFn nid root partners))
    (cfg : EngineData ℚ) (nextId : ℕ) (roster : List (Particle ℚ))
    (hall : ∀ p ∈ roster, P p) :
    ∀ q ∈ handleMergers radiusFn cfg nextId roster, P q := by
  rw [handleMergers]
  by_cases hA : cfg.AllowMerge
  · simp only [hA, if_true]
    have hfold : ∀ (is : List ℕ)
        (st : List (Particle ℚ) × List ℕ × List (Particle ℚ) × ℕ),
        (∀ p ∈ st.1, P p) → (∀ m ∈ st.2.2.1, P m) →
        (∀ p ∈ (is.foldl (mergeStep radiusFn) st).1, P p) ∧
        (∀ m ∈ (is.foldl (mergeStep radiusFn) st).2.2.1, P m) := by
      intro is
      induction is with
      | nil => intro st h1 h2; exact ⟨h1, h2⟩
      | cons i rest ih =>
          intro st h1 h2
          rw [List.foldl_cons]
          obtain ⟨l, dl, al, nid⟩ := st
          apply ih
          · rw [mergeStep]
            by_cases hm : (getP qOps l i).merging
            · simp only [hm, if_true]
              by_cases hc : 0 < (getP qOps l i).mergingWith.length
              · simp only [hc, if_true]
                exact edgeDeletionFold_invariant hmut2 _ l h1
              · simp only [hc, if_false]
                intro q hq
                exact mem_set_invariant h1
                  (fun hi => hmut1 _ (h1 _ (getP_mem qOps l i hi))) hq
            · simp only [hm, Bool.false_eq_true, if_false]
              exact h1
          · rw [mergeStep]
            by_cases hm : (getP qOps l i).merging
            · simp only [hm, if_true]
              by_cases hc : 0 < (getP qOps l i).mergingWith.length
              · simp only [hc, if_true]
                intro m hm2
                rcases List.mem_append.mp hm2 with h | h
                · exact h2 _ h
                · rcases List.mem_singleton.mp h with rfl
                  by_cases hi : i < l.length
                  · exact hagg _ _ _ (h1 _ (getP_mem qOps l i hi))
                  · exact absurd hm (by
                      have : getP qOps l i = dummyP qOps := by
                        rw [getP, List.getD_eq_getElem?_getD]
                        rw [List.getElem?_eq_none (le_of_not_lt hi)]
                        rfl
                      rw [this]
                      simp [dummyP])
              · simp only [hc, if_false]
                exact h2
            · simp only [hm, Bool.false_eq_true, if_false]
              exact h2
    intro q hq
    have hres := hfold (List.range roster.length) (roster, [], [], nextId) hall
      (by intro m hm; simp at hm)
    rcases List.mem_append.mp hq with h | h
    · exact hres.1 _ (deletionFold_subset _ _ _ h)
    · exact hres.2 _ h
  · simp only [hA, Bool.false_eq_true, if_false]
    exact hall

/-- The wall-bounce step either leaves the particle unchanged or writes
only its position and velocity. -/
lemma wallStep_shape (cfg : EngineData ℚ) (p : Particle ℚ) :
    wallStep cfg p = p ∨
    ∃ pos v, wallStep cfg p = (p.SetPosition pos).SetVelocity v := by
  rw [wallStep]
  by_cases h1 : xWallViolated cfg p
  · rw [if_pos h1]
    exact Or.inr ⟨_, _, rfl⟩
  · rw [if_neg h1]
    by_cases h2 : yWallViolated cfg p
    · rw [if_pos h2]
      exact Or.inr ⟨_, _, rfl⟩
    · rw [if_neg h2]
      exact Or.inl rfl

/-- The whole tick preserves any predicate stable under each phase's
mutation shapes. -/
lemma UpdateParticles_invariant {P : Particle ℚ → Prop}
    {magFn : Vec ℚ → ℚ} {radiusFn : ℚ → ℤ} (cfg : EngineData ℚ)
    (hP1 : ∀ p, P p → P { p with bouncing := false })
    (hP2 : cfg.AllowMerge = true → ∀ p oid, P p →
      P { p with merging := true, mergingWith := insertId oid p.mergingWith })
    (hP3 : ∀ p oid v, P p →
      P { p with bouncing := true, bouncingAgainst := some oid, velocity := v })
    (hP4 : ∀ p v, P p → P (p.SetVelocity v))
    (hpos : ∀ p, P p → P (p.UpdatePosition qOps))
    (hmut1 : ∀ p, P p → P { p with merging := false })
    (hmut2 : ∀ p pid, P p → P { p with mergingWith := removeId pid p.mergingWith })
    (hagg : ∀ nid root partners, P root → P (aggregateCluster radiusFn nid root partners))
    (hwall : ∀ p pos v, P p → P ((p.SetPosition pos).SetVelocity v))
    (nextId : ℕ) (roster : List (Particle ℚ))
    (hall : ∀ p ∈ roster, P p) :
    ∀ q ∈ UpdateParticles magFn radiusFn cfg nextId roster, P q := by
  rw [UpdateParticles]
  have h1 : ∀ q ∈ updateParticleVelocities qOps magFn cfg roster, P q :=
    updateParticleVelocities_invariant cfg hP1 hP2 hP3 hP4 magFn roster hall
  have h2 : ∀ q ∈ updateParticlePositions qOps
      (updateParticleVelocities qOps magFn cfg roster), P q := by
    intro q hq
    rcases List.mem_map.mp hq with ⟨p, hp, rfl⟩
    exact hpos p (h1 p hp)
  have h3 : ∀ q ∈ sortByMassDesc (updateParticlePositions qOps
      (updateParticleVelocities qOps magFn cfg roster)), P q := by
    intro q hq
    exact h2 q ((sortByMassDesc_perm _).mem_iff.mp hq)
  have h4 : ∀ q ∈ handleMergers radiusFn cfg nextId
      (sortByMassDesc (updateParticlePositions qOps
        (updateParticleVelocities qOps magFn cfg roster))), P q :=
    handleMergers_invariant hmut1 hmut2 hagg cfg nextId _ h3
  by_cases hwb : cfg.WallBounce
  · simp only [hwb, if_true]
    intro q hq
    rcases List.mem_map.mp hq with ⟨p, hp, rfl⟩
    rcases wallStep_shape cfg p with h | ⟨pos, v, h⟩
    · rw [h]; exact h4 p hp
    · rw [h]; exact hwall p pos v (h4 p hp)
  · simp only [hwb, Bool.false_eq_true, if_false]
    exact h4

/-- The history-bound invariant of C4: the buffer never exceeds the
configured size. -/
def historyOK (p : Particle ℚ) : Prop :=
  (p.positionHistory.length : ℤ) ≤ p.historySize

/-- One position update preserves the history bound: the append is
followed by a single front eviction exactly when the bound would be
exceeded. -/
lemma UpdatePosition_historyOK (p : Particle ℚ) (h : historyOK p) :
    historyOK (p.UpdatePosition qOps) := by
  rw [Particle.UpdatePosition]
  by_cases ht : p.trackHistory
  · simp only [ht, if_true]
    by_cases hlen : ((p.positionHistory ++ [p.position]).length : ℤ) > p.historySize
    · simp only [hlen, if_pos]
      rw [historyOK] at h ⊢
      simp only [Particle.SetPosition, Particle.SetPositionHistory]
      simp only [List.length_drop, List.length_append, List.length_singleton]
      omega
    · simp only [hlen, if_neg, if_false]
      rw [historyOK] at h ⊢
      simp only [Particle.SetPosition, Particle.SetPositionHistory]
      simp only [List.length_append, List.length_singleton]
      simp only [List.length_append, List.length_singleton] at hlen
      omega
  · simp only [ht, Bool.false_eq_true, if_false]
    exact h

/-- C4: the history bound `|positionHistory| ≤ historySize` is preserved
by every tick (every phase either leaves the buffer alone, appends with
single-eviction, permutes the roster, or copies a bounded buffer into a
merged particle), and the program's `historySize`-mutation operation
(`HistoryTrailLengthChangedEvent`, which truncates before storing the new
size) re-establishes the bound immediately from any state, truncating
from the oldest end — the new buffer is a suffix of the old one and the
new size is the submitted value. -/
theorem C4_history_bound (magFn : Vec ℚ → ℚ) (radiusFn : ℚ → ℤ)
    (cfg : EngineData ℚ) (nextId : ℕ) (roster : List (Particle ℚ)) (value : ℤ)
    (hall : ∀ p ∈ roster, historyOK p) (hv : 0 ≤ value) :
    (∀ q ∈ UpdateParticles magFn radiusFn cfg nextId roster, historyOK q) ∧
    (∀ l : List (Particle ℚ), ∀ q ∈ HistoryTrailLengthChangedEvent value l,
      historyOK q ∧ q.historySize = value ∧
        ∃ p ∈ l, List.IsSuffix q.positionHistory p.positionHistory) := by
  constructor
  · apply UpdateParticles_invariant
    · intro p hp
      exact hp
    · intro hA p oid hp
      exact hp
    · intro p oid v hp
      exact hp
    · intro p v hp
      exact hp
    · exact UpdatePosition_historyOK
    · intro p hp
      exact hp
    · intro p pid hp
      exact hp
    · intro nid root partners hroot
      rw [historyOK]
      simp only [aggregateCluster, Particle.SetPositionHistory, Particle.SetHistorySize,
        Particle.SetTrackHistory, Particle.SetVelocity]
      exact hroot
    · intro p pos v hp
      exact hp
    · exact hall
  · intro l q hq
    rcases List.mem_map.mp hq with ⟨p, hp, rfl⟩
    rw [historyLengthChangedParticle]
    by_cases hlen : (p.positionHistory.length : ℤ) > value
    · simp only [hlen, if_pos]
      constructor
      · rw [historyOK]
        simp only [Particle.SetHistorySize, Particle.SetPositionHistory, List.length_drop]
        omega
      · constructor
        · rfl
        · exact ⟨p, hp, List.drop_suffix _ _⟩
    · simp only [hlen, if_neg, if_false]
      constructor
      · rw [historyOK]
        simp only [Particle.SetHistorySize]
        omega
      · exact ⟨rfl, p, hp, List.suffix_refl _⟩

/-- A particle with a two-entry trail and capacity three, for the
history-bound witness. -/
def trailP : Particle ℚ :=
  { twinA with
    trackHistory := true
    historySize := 3
    positionHistory := [((1 : ℚ), (1 : ℚ)), ((2 : ℚ), (2 : ℚ))] }

/-- C4 witness: a tick of a concrete two-particle roster with in-bound
history buffers keeps the bound. -/
theorem C4_history_bound_witness :
    (∀ p ∈ [trailP, twinB], historyOK p) ∧
    (0 : ℤ) ≤ 2 ∧
    (∀ q ∈ UpdateParticles magQ radiusApproxFn initializeEngine 50
      [trailP, twinB], historyOK q) := by
  have h := C4_history_bound magQ radiusApproxFn initializeEngine 50
    [trailP, twinB] 2
    (by
      intro p hp
      simp only [List.mem_cons, List.not_mem_nil, or_false] at hp
      rcases hp with rfl | rfl
      · rw [historyOK]; decide
      · rw [historyOK]; decide)
    (by decide)
  refine ⟨?_, by decide, h.1⟩
  intro p hp
  simp only [List.mem_cons, List.not_mem_nil, or_false] at hp
  rcases hp with rfl | rfl
  · rw [historyOK]; decide
  · rw [historyOK]; decide

/-!
## Merge-state clearing (C9)
-/

/-- Fully cleared merge state: not merging and an empty partner set. -/
def mergeClean (p : Particle ℚ) : Prop :=
  p.merging = false ∧ p.mergingWith = []

/-- The in-tick merge-state invariant: a particle not flagged as merging
has no partners (edges are only ever created together with the flag). -/
def mergeSynced (p : Particle ℚ) : Prop :=
  p.merging = false → p.mergingWith = []

/-- In-range roster reads are list indexing. -/
lemma getP_eq_getElem (l : List (Particle ℚ)) (i : ℕ) (h : i < l.length) :
    getP qOps l i = l[i] :=
  List.getD_eq_getElem l (dummyP qOps) h

/-- Out-of-range roster reads give the placeholder. -/
lemma getP_out_of_range (l : List (Particle ℚ)) (i : ℕ) (h : ¬ i < l.length) :
    getP qOps l i = dummyP qOps := by
  rw [getP, List.getD_eq_getElem?_getD, List.getElem?_eq_none (le_of_not_lt h)]
  rfl

/-- Reading a written slot. -/
lemma getP_set_eq (l : List (Particle ℚ)) (i : ℕ) (x : Particle ℚ)
    (h : i < l.length) : getP qOps (l.set i x) i = x := by
  rw [getP, List.getD_eq_getElem?_getD, List.getElem?_set_self h]
  rfl

/-- Reading another slot after a write. -/
lemma getP_set_ne (l : List (Particle ℚ)) (i : ℕ) (x : Particle ℚ) (j : ℕ)
    (h : j ≠ i) : getP qOps (l.set i x) j = getP qOps l j := by
  rw [getP, getP, List.getD_eq_getElem?_getD, List.getD_eq_getElem?_getD,
    List.getElem?_set_ne (Ne.symm h)]

/-- Pointer-targeted updates that do not touch `merging` leave every
slot's `merging` unchanged. -/
lemma getP_updateById_merging (upd : Particle ℚ → Particle ℚ)
    (hupd : ∀ p, (upd p).merging = p.merging) (l : List (Particle ℚ))
    (oid j : ℕ) :
    (getP qOps (updateById l oid upd) j).merging = (getP qOps l j).merging := by
  have hlen : (updateById l oid upd).length = l.length := by
    simp [updateById]
  by_cases h : j < l.length
  · rw [getP_eq_getElem _ _ (by rw [hlen]; exact h), getP_eq_getElem _ _ h]
    simp only [updateById, List.getElem_map]
    by_cases hid : l[j].id = oid
    · simp only [hid, if_pos]
      exact hupd _
    · simp only [hid, if_neg, if_false]
  · rw [getP_out_of_range _ _ (by rw [hlen]; exact h), getP_out_of_range _ _ h]

/-- The reverse-edge deletion loop leaves every slot's `merging`
unchanged and preserves the roster length. -/
lemma edgeFold_merging (pid : ℕ) (ids : List ℕ) :
    ∀ l : List (Particle ℚ),
      ((ids.foldl (fun r oid => updateById r oid
        (fun o => { o with mergingWith := removeId pid o.mergingWith })) l).length =
        l.length) ∧
      (∀ j, (getP qOps (ids.foldl (fun r oid => updateById r oid
        (fun o => { o with mergingWith := removeId pid o.mergingWith })) l) j).merging =
        (getP qOps l j).merging) := by
  induction ids with
  | nil => intro l; exact ⟨rfl, fun j => rfl⟩
  | cons i rest ih =>
      intro l
      rw [List.foldl_cons]
      refine ⟨?_, fun j => ?_⟩
      · rw [(ih _).1]
        simp [updateById]
      · rw [(ih _).2 j, getP_updateById_merging
          (fun o => { o with mergingWith := removeId pid o.mergingWith })
          (fun p => rfl)]

/-- A freshly aggregated particle carries no merge state. -/
lemma aggregateCluster_clean (radiusFn : ℚ → ℤ) (nid : ℕ) (root : Particle ℚ)
    (partners : List (Particle ℚ)) :
    mergeClean (aggregateCluster radiusFn nid root partners) := by
  rw [mergeClean]
  simp [aggregateCluster, NewParticle, Particle.SetMass, Particle.SetCloseCharge,
    Particle.SetFarCharge, Particle.SetVelocity, Particle.SetTrackHistory,
    Particle.SetHistorySize, Particle.SetPositionHistory]

/-- Membership in a descending insertion. -/
lemma mem_insertDescNat {x i : ℕ} {l : List ℕ} :
    x ∈ insertDescNat i l ↔ x = i ∨ x ∈ l := by
  induction l with
  | nil => simp [insertDescNat]
  | cons j rest ih =>
      by_cases h : j < i
      · simp [insertDescNat, h]
      · simp only [insertDescNat, if_neg h, List.mem_cons, ih]
        tauto

/-- Descending insertion permutes consing. -/
lemma insertDescNat_perm (i : ℕ) (l : List ℕ) :
    (insertDescNat i l).Perm (i :: l) := by
  induction l with
  | nil => simp [insertDescNat]
  | cons j rest ih =>
      by_cases h : j < i
      · simp [insertDescNat, h]
      · have h1 : insertDescNat i (j :: rest) = j :: insertDescNat i rest := by
          simp [insertDescNat, h]
        rw [h1]
        exact (ih.cons j).trans (List.Perm.swap i j rest)

/-- The deletion-index sort permutes its input. -/
lemma sortDescNat_perm (l : List ℕ) : (sortDescNat l).Perm l := by
  induction l with
  | nil => exact List.Perm.refl _
  | cons i rest ih => exact (insertDescNat_perm i _).trans (ih.cons i)

/-- Descending insertion preserves non-increasing order. -/
lemma insertDescNat_pairwise {i : ℕ} {l : List ℕ}
    (h : l.Pairwise (fun a b => b ≤ a)) :
    (insertDescNat i l).Pairwise (fun a b => b ≤ a) := by
  induction l with
  | nil => simp [insertDescNat]
  | cons j rest ih =>
      rcases List.pairwise_cons.mp h with ⟨hj, hrest⟩
      by_cases hc : j < i
      · simp only [insertDescNat, if_pos hc]
        refine List.pairwise_cons.mpr ⟨?_, h⟩
        intro x hx
        rcases List.mem_cons.mp hx with rfl | hx
        · exact le_of_lt hc
        · exact le_trans (hj x hx) (le_of_lt hc)
      · simp only [insertDescNat, if_neg hc]
        refine List.pairwise_cons.mpr ⟨?_, ih hrest⟩
        intro x hx
        rcases mem_insertDescNat.mp hx with rfl | hx
        · exact le_of_not_lt hc
        · exact hj x hx

/-- The deletion-index sort produces non-increasing order. -/
lemma sortDescNat_pairwise (l : List ℕ) :
    (sortDescNat l).Pairwise (fun a b => b ≤ a) := by
  induction l with
  | nil => simp [sortDescNat]
  | cons i rest ih => exact insertDescNat_pairwise ih

/-- Reading a slot of the swap-with-last removal result: the removed
index holds the (former) last element, the rest are unchanged. -/
lemma getP_removeSwapAt (l : List (Particle ℚ)) (i j : ℕ)
    (hj : j < l.length - 1) :
    getP qOps (removeSwapAt l i) j =
      if j = i then getP qOps l (l.length - 1) else getP qOps l j := by
  have hlen : (removeSwapAt l i).length = l.length - 1 := by
    simp [removeSwapAt]
  have hj2 : j < (l.set i (l.getD (l.length - 1) (dummyP qOps))).length := by
    simpa using (by omega : j < l.length)
  have hj3 : j < (l.set i (l.getD (l.length - 1) (dummyP qOps))).dropLast.length := by
    simpa using hj
  have hb1 : j < (removeSwapAt l i).length := by
    rw [hlen]
    exact hj
  rw [getP_eq_getElem _ _ hb1]
  have step1 : (removeSwapAt l i)[j] =
      (l.set i (l.getD (l.length - 1) (dummyP qOps)))[j] :=
    List.getElem_dropLast _ _ hj3
  rw [step1, List.getElem_set hj2]
  by_cases hji : j = i
  · rw [if_pos (Eq.symm hji), if_pos hji]
    rw [getP, List.getD_eq_getElem?_getD, List.getElem?_eq_getElem (by omega :
      l.length - 1 < l.length)]
  · rw [if_neg (fun h => hji (Eq.symm h)), if_neg hji,
      getP_eq_getElem _ _ (by omega)]

/-- Processing a strictly decreasing list of in-range indices with
swap-with-last removal keeps exactly the elements at non-deleted
positions: every survivor sits at some index outside the deletion set. -/
lemma deletionFold_chars (idxs : List ℕ) :
    ∀ l : List (Particle ℚ),
      idxs.Pairwise (fun a b => b < a) → (∀ i ∈ idxs, i < l.length) →
      ∀ q ∈ idxs.foldl removeSwapAt l,
        ∃ j, j < l.length ∧ j ∉ idxs ∧ getP qOps l j = q := by
  induction idxs with
  | nil =>
      intro l _ _ q hq
      rw [List.foldl_nil] at hq
      obtain ⟨j, hj, hjq⟩ := List.getElem_of_mem hq
      exact ⟨j, hj, by simp, by rw [getP_eq_getElem _ _ hj]; exact hjq⟩
  | cons i rest ih =>
      intro l hpw hlt q hq
      rcases List.pairwise_cons.mp hpw with ⟨hhead, htail⟩
      have hi : i < l.length := hlt i (List.mem_cons_self i rest)
      have hlen' : (removeSwapAt l i).length = l.length - 1 := by
        simp [removeSwapAt]
      rw [List.foldl_cons] at hq
      have hltrest : ∀ k ∈ rest, k < (removeSwapAt l i).length := by
        intro k hk
        rw [hlen']
        have := hhead k hk
        omega
      obtain ⟨j, hj, hjrest, hjq⟩ := ih (removeSwapAt l i) htail hltrest q hq
      rw [hlen'] at hj
      rw [getP_removeSwapAt l i j hj] at hjq
      by_cases hji : j = i
      · subst hji
        rw [if_pos rfl] at hjq
        refine ⟨l.length - 1, by omega, ?_, hjq⟩
        intro hmem
        rcases List.mem_cons.mp hmem with h | h
        · omega
        · have := hhead _ h
          omega
      · rw [if_neg hji] at hjq
        refine ⟨j, by omega, ?_, hjq⟩
        intro hmem
        rcases List.mem_cons.mp hmem with h | h
        · exact hji h
        · exact hjrest h

/-- Branch analysis of one merger-loop iteration. -/
lemma mergeStep_cases (radiusFn : ℚ → ℤ) (roster : List (Particle ℚ))
    (dl : List ℕ) (al : List (Particle ℚ)) (nid i : ℕ) :
    ((getP qOps roster i).merging = false ∧
      mergeStep radiusFn (roster, dl, al, nid) i = (roster, dl, al, nid)) ∨
    ((getP qOps roster i).merging = true ∧
      ¬ 0 < (getP qOps roster i).mergingWith.length ∧
      mergeStep radiusFn (roster, dl, al, nid) i =
        (roster.set i { getP qOps roster i with merging := false },
          dl ++ [i], al, nid)) ∨
    ((getP qOps roster i).merging = true ∧
      0 < (getP qOps roster i).mergingWith.length ∧
      mergeStep radiusFn (roster, dl, al, nid) i =
        ((getP qOps roster i).mergingWith.foldl (fun r oid => updateById r oid
            (fun o => { o with
              mergingWith := removeId (getP qOps roster i).id o.mergingWith }))
          roster,
          dl ++ [i],
          al ++ [aggregateCluster radiusFn nid (getP qOps roster i)
            ((getP qOps roster i).mergingWith.map (findById roster))],
          nid + 1)) := by
  by_cases hm : (getP qOps roster i).merging
  · by_cases hc : 0 < (getP qOps roster i).mergingWith.length
    · exact Or.inr (Or.inr ⟨hm, hc, by rw [mergeStep]; simp [hm, hc]⟩)
    · exact Or.inr (Or.inl ⟨hm, hc, by rw [mergeStep]; simp [hm, hc]⟩)
  · rw [Bool.not_eq_true] at hm
    exact Or.inl ⟨hm, by rw [mergeStep]; simp [hm]⟩

/-- Postcondition of the merger loop fold relative to its start state:
length and the sync invariant are preserved, the delete list stays
in-range, strictly increasing and only grows, the add list is clean, the
`merging` flag is never switched on, and every processed index whose
particle is still flagged is scheduled for deletion. -/
def MergeFoldPost (n : ℕ)
    (st e : List (Particle ℚ) × List ℕ × List (Particle ℚ) × ℕ)
    (is : List ℕ) : Prop :=
  e.1.length = n ∧
  (∀ p ∈ e.1, mergeSynced p) ∧
  (∀ j ∈ e.2.1, j < n) ∧
  e.2.1.Pairwise (· < ·) ∧
  (∀ m ∈ e.2.2.1, mergeClean m) ∧
  (∀ j ∈ st.2.1, j ∈ e.2.1) ∧
  (∀ j, (getP qOps e.1 j).merging = true → (getP qOps st.1 j).merging = true) ∧
  (∀ j ∈ is, (getP qOps e.1 j).merging = true → j ∈ e.2.1)

/-- The merger loop satisfies its postcondition for any strictly
increasing list of in-range indices. -/
lemma mergeFold_spec (radiusFn : ℚ → ℤ) (n : ℕ) :
    ∀ (is : List ℕ) (st : List (Particle ℚ) × List ℕ × List (Particle ℚ) × ℕ),
    is.Pairwise (· < ·) → (∀ k ∈ is, k < n) →
    st.1.length = n → (∀ p ∈ st.1, mergeSynced p) →
    (∀ j ∈ st.2.1, j < n) → st.2.1.Pairwise (· < ·) →
    (∀ j ∈ st.2.1, ∀ k ∈ is, j < k) →
    (∀ m ∈ st.2.2.1, mergeClean m) →
    MergeFoldPost n st (is.foldl (mergeStep radiusFn) st) is := by
  intro is
  induction is with
  | nil =>
      intro st _ _ hlen hsync hdlt hdpw _ hal
      rw [List.foldl_nil]
      exact ⟨hlen, hsync, hdlt, hdpw, hal, fun j h => h, fun j h => h,
        fun j hj => absurd hj (List.not_mem_nil j)⟩
  | cons i rest ih =>
      intro st hpw hk hlen hsync hdlt hdpw hfut hal
      obtain ⟨roster, dl, al, nid⟩ := st
      rcases List.pairwise_cons.mp hpw with ⟨hheadlt, htailpw⟩
      have hin : i < n := hk i (List.mem_cons_self i rest)
      have hrestk : ∀ k ∈ rest, k < n := fun k hk2 => hk k (List.mem_cons_of_mem i hk2)
      rw [List.foldl_cons]
      rcases mergeStep_cases radiusFn roster dl al nid i with
        ⟨hm, heq⟩ | ⟨hm, hc, heq⟩ | ⟨hm, hc, heq⟩
      · rw [heq]
        have hpost := ih (roster, dl, al, nid) htailpw hrestk hlen hsync hdlt hdpw
          (fun j hj k hk2 => hfut j hj k (List.mem_cons_of_mem i hk2)) hal
        obtain ⟨e1, e2, e3, e4, e5, e6, e7, e8⟩ := hpost
        refine ⟨e1, e2, e3, e4, e5, e6, e7, fun j hj hmg => ?_⟩
        rcases List.mem_cons.mp hj with rfl | hj
        · exact absurd (e7 j hmg) (by simp [hm])
        · exact e8 j hj hmg
      · rw [heq]
        have hlen2 : (roster.set i { getP qOps roster i with merging := false }).length
            = n := by
          rw [List.length_set]; exact hlen
        have hsync2 : ∀ p ∈ roster.set i { getP qOps roster i with merging := false },
            mergeSynced p := by
          intro p hp
          refine mem_set_invariant hsync (fun hi2 => ?_) hp
          intro _
          show (getP qOps roster i).mergingWith = []
          exact List.length_eq_zero.mp (by omega)
        have hdlt2 : ∀ j ∈ dl ++ [i], j < n := by
          intro j hj
          rcases List.mem_append.mp hj with h | h
          · exact hdlt j h
          · rcases List.mem_singleton.mp h with rfl
            exact hin
        have hdpw2 : (dl ++ [i]).Pairwise (· < ·) := by
          rw [List.pairwise_append]
          exact ⟨hdpw, List.pairwise_singleton _ _, fun a ha b hb => by
            rcases List.mem_singleton.mp hb with rfl
            exact hfut a ha b (List.mem_cons_self b rest)⟩
        have hfut2 : ∀ j ∈ dl ++ [i], ∀ k ∈ rest, j < k := by
          intro j hj k hk2
          rcases List.mem_append.mp hj with h | h
          · exact hfut j h k (List.mem_cons_of_mem i hk2)
          · rcases List.mem_singleton.mp h with rfl
            exact hheadlt k hk2
        have hpost := ih (roster.set i { getP qOps roster i with merging := false },
          dl ++ [i], al, nid) htailpw hrestk hlen2 hsync2 hdlt2 hdpw2 hfut2 hal
        obtain ⟨e1, e2, e3, e4, e5, e6, e7, e8⟩ := hpost
        refine ⟨e1, e2, e3, e4, e5, fun j hj => e6 j (List.mem_append_left _ hj),
          fun j hmg => ?_, fun j hj hmg => ?_⟩
        · have h2 := e7 j hmg
          by_cases hji : j = i
          · subst hji
            rw [getP_set_eq _ _ _ (by rw [hlen]; exact hin)] at h2
            exact absurd h2 (by simp)
          · rwa [getP_set_ne _ _ _ _ hji] at h2
        · rcases List.mem_cons.mp hj with rfl | hj
          · exact e6 j (List.mem_append_right _ (List.mem_singleton_self j))
          · exact e8 j hj hmg
      · rw [heq]
        have hedge := edgeFold_merging (getP qOps roster i).id
          (getP qOps roster i).mergingWith roster
        have hlen2 : ((getP qOps roster i).mergingWith.foldl (fun r oid =>
            updateById r oid (fun o => { o with
              mergingWith := removeId (getP qOps roster i).id o.mergingWith }))
            roster).length = n := by
          rw [hedge.1]; exact hlen
        have hsync2 : ∀ p ∈ (getP qOps roster i).mergingWith.foldl (fun r oid =>
            updateById r oid (fun o => { o with
              mergingWith := removeId (getP qOps roster i).id o.mergingWith }))
            roster, mergeSynced p := by
          apply edgeDeletionFold_invariant
          · intro p pid2 hp hmg2
            have : p.mergingWith = [] := hp hmg2
            show removeId pid2 p.mergingWith = []
            rw [this]; rfl
          · exact hsync
        have hdlt2 : ∀ j ∈ dl ++ [i], j < n := by
          intro j hj
          rcases List.mem_append.mp hj with h | h
          · exact hdlt j h
          · rcases List.mem_singleton.mp h with rfl
            exact hin
        have hdpw2 : (dl ++ [i]).Pairwise (· < ·) := by
          rw [List.pairwise_append]
          exact ⟨hdpw, List.pairwise_singleton _ _, fun a ha b hb => by
            rcases List.mem_singleton.mp hb with rfl
            exact hfut a ha b (List.mem_cons_self b rest)⟩
        have hfut2 : ∀ j ∈ dl ++ [i], ∀ k ∈ rest, j < k := by
          intro j hj k hk2
          rcases List.mem_append.mp hj with h | h
          · exact hfut j h k (List.mem_cons_of_mem i hk2)
          · rcases List.mem_singleton.mp h with rfl
            exact hheadlt k hk2
        have hal2 : ∀ m ∈ al ++ [aggregateCluster radiusFn nid (getP qOps roster i)
            ((getP qOps roster i).mergingWith.map (findById roster))],
            mergeClean m := by
          intro m hm2
          rcases List.mem_append.mp hm2 with h | h
          · exact hal m h
          · rcases List.mem_singleton.mp h with rfl
            exact aggregateCluster_clean _ _ _ _
        have hpost := ih ((getP qOps roster i).mergingWith.foldl (fun r oid =>
            updateById r oid (fun o => { o with
              mergingWith := removeId (getP qOps roster i).id o.mergingWith }))
            roster,
          dl ++ [i],
          al ++ [aggregateCluster radiusFn nid (getP qOps roster i)
            ((getP qOps roster i).mergingWith.map (findById roster))],
          nid + 1) htailpw hrestk hlen2 hsync2 hdlt2 hdpw2 hfut2 hal2
        obtain ⟨e1, e2, e3, e4, e5, e6, e7, e8⟩ := hpost
        refine ⟨e1, e2, e3, e4, e5, fun j hj => e6 j (List.mem_append_left _ hj),
          fun j hmg => ?_, fun j hj hmg => ?_⟩
        · have h2 := e7 j hmg
          rwa [hedge.2 j] at h2
        · rcases List.mem_cons.mp hj with rfl | hj
          · exact e6 j (List.mem_append_right _ (List.mem_singleton_self j))
          · exact e8 j hj hmg

/-- A position update does not touch the merge state. -/
lemma UpdatePosition_merge_fields (p : Particle ℚ) :
    (p.UpdatePosition qOps).merging = p.merging ∧
    (p.UpdatePosition qOps).mergingWith = p.mergingWith := by
  rw [Particle.UpdatePosition]
  by_cases ht : p.trackHistory
  · simp only [ht, if_true]
    by_cases hlen : ((p.positionHistory ++ [p.position]).length : ℤ) > p.historySize
    · simp only [hlen, if_pos]
      exact ⟨rfl, rfl⟩
    · simp only [hlen, if_neg, if_false]
      exact ⟨rfl, rfl⟩
  · simp only [ht, Bool.false_eq_true, if_false]
    exact ⟨rfl, rfl⟩

/-- With merging enabled, the merge-handling phase leaves only particles
with fully cleared merge state: every `merging` particle is deleted
(either as a cluster root or as a consumed partner), survivors satisfy
the sync invariant with the flag off, and the freshly added merged
particles are clean. -/
lemma handleMergers_clears (radiusFn : ℚ → ℤ) (cfg : EngineData ℚ)
    (nextId : ℕ) (roster : List (Particle ℚ))
    (hA : cfg.AllowMerge = true) (hsync : ∀ p ∈ roster, mergeSynced p) :
    ∀ q ∈ handleMergers radiusFn cfg nextId roster, mergeClean q := by
  have heq : handleMergers radiusFn cfg nextId roster =
      ((sortDescNat ((List.range roster.length).foldl (mergeStep radiusFn)
        (roster, [], [], nextId)).2.1).foldl removeSwapAt
        ((List.range roster.length).foldl (mergeStep radiusFn)
          (roster, [], [], nextId)).1) ++
      ((List.range roster.length).foldl (mergeStep radiusFn)
        (roster, [], [], nextId)).2.2.1 := by
    rw [handleMergers, if_pos hA]
  have hspec := mergeFold_spec radiusFn roster.length (List.range roster.length)
    (roster, [], [], nextId) (List.pairwise_lt_range _)
    (fun k hk => List.mem_range.mp hk) rfl hsync
    (fun j hj => absurd hj (List.not_mem_nil j))
    List.Pairwise.nil
    (fun j hj => absurd hj (List.not_mem_nil j))
    (fun m hm => absurd hm (List.not_mem_nil m))
  obtain ⟨e1, e2, e3, e4, e5, e6, e7, e8⟩ := hspec
  intro q hq
  rw [heq] at hq
  rcases List.mem_append.mp hq with h | h
  · have hnodup : ((List.range roster.length).foldl (mergeStep radiusFn)
        (roster, [], [], nextId)).2.1.Nodup :=
      e4.imp (fun hlt => ne_of_lt hlt)
    have hsorted := sortDescNat_pairwise ((List.range roster.length).foldl
      (mergeStep radiusFn) (roster, [], [], nextId)).2.1
    have hnodup2 : (sortDescNat ((List.range roster.length).foldl (mergeStep radiusFn)
        (roster, [], [], nextId)).2.1).Nodup :=
      (sortDescNat_perm _).nodup_iff.mpr hnodup
    have hstrict : (sortDescNat ((List.range roster.length).foldl (mergeStep radiusFn)
        (roster, [], [], nextId)).2.1).Pairwise (fun a b => b < a) :=
      (hsorted.and hnodup2).imp (fun h2 => lt_of_le_of_ne h2.1 (Ne.symm h2.2))
    have hbound : ∀ i ∈ sortDescNat ((List.range roster.length).foldl
        (mergeStep radiusFn) (roster, [], [], nextId)).2.1,
        i < ((List.range roster.length).foldl (mergeStep radiusFn)
          (roster, [], [], nextId)).1.length := by
      intro i hi
      rw [e1]
      exact e3 i ((sortDescNat_perm _).mem_iff.mp hi)
    obtain ⟨j, hjlen, hjnot, hjq⟩ := deletionFold_chars _ _ hstrict hbound q h
    have hjn : j < roster.length := by
      rw [e1] at hjlen
      exact hjlen
    have hmg : (getP qOps ((List.range roster.length).foldl (mergeStep radiusFn)
        (roster, [], [], nextId)).1 j).merging = false := by
      by_cases hmg2 : (getP qOps ((List.range roster.length).foldl (mergeStep radiusFn)
          (roster, [], [], nextId)).1 j).merging = true
      · exact absurd ((sortDescNat_perm _).mem_iff.mpr
          (e8 j (List.mem_range.mpr hjn) hmg2)) hjnot
      · exact Bool.not_eq_true _ ▸ (Bool.eq_false_iff.mpr (fun h2 => hmg2 h2))
    have hsynced := e2 _ (getP_mem qOps _ j hjlen)
    rw [← hjq]
    exact ⟨hmg, hsynced hmg⟩
  · exact e5 q h

/-!
# Claim theorems
-/

/-- C1: the claim states that a particle with zero contributing
neighbours receives a zero force contribution (velocity unchanged) and
that no NaN is ever written into a velocity.  The code is the opposite:
`updateParticleVelocities` divides the zero accumulator vectors by
`float64(ct)` without guarding `ct = 0`, and `0 * (1/0) = 0 * +Inf = NaN`
in binary64, so a roster with a single particle gets NaN written into
both velocity components.  This theorem evaluates the embedded code on
that failing input in the binary64 special-value model. -/
theorem C1_zero_contributors_write_nan :
    updateParticleVelocities gOps (fun _ => GFloat.fin 0) gDefaultEngine [loneParticle] =
      [{ loneParticle with velocity := (GFloat.nan, GFloat.nan) }] ∧
    GFloat.isNaN (getP gOps (updateParticleVelocities gOps (fun _ => GFloat.fin 0)
      gDefaultEngine [loneParticle]) 0).velocity.1 = true ∧
    loneParticle.velocity = (GFloat.fin 3, GFloat.fin 4) := by
  refine ⟨rfl, rfl, rfl⟩

/-- C6 counterexample: the claim states that the per-tick roster sort is
a stable sort (equal-mass particles keep their relative order).  The
source calls Go's `sort.Slice`, whose documented contract — sortedness
by the comparator plus being a permutation — is explicitly not stability:
for the equal-mass roster `[twinA, twinB]`, the reversed output
`[twinB, twinA]` also satisfies the contract while differing from the
order-preserving (stable) result, so the contract the code relies on
does not force the claimed stability. -/
theorem C6_counterexample_contract_allows_reversal :
    sortSliceMassDescPost [twinA, twinB] [twinB, twinA] ∧
    sortByMassDesc [twinA, twinB] = [twinA, twinB] ∧
    [twinB, twinA] ≠ [twinA, twinB] := by
  refine ⟨⟨List.Perm.swap twinA twinB [], by decide⟩, by decide, by decide⟩

/-- C6 amended: the per-tick sort orders the roster by non-increasing
mass (larger mass first) and returns a permutation of the roster — the
mass-descending half of the claim; stability is not part of the
`sort.Slice` contract and is dropped. -/
theorem C6_amended_mass_descending_permutation (l : List (Particle ℚ)) :
    sortSliceMassDescPost l (sortByMassDesc l) :=
  ⟨sortByMassDesc_perm l, sortByMassDesc_pairwise l⟩

/-- C8 counterexample: the claim states an invalid (negative)
`environmentSize` submitted at the configuration boundary is rejected
with the engine state unchanged.  The handler performs no validation:
submitting `-5` against the default configuration stores `-5`. -/
theorem C8_counterexample_negative_size_accepted :
    (EnvironmentSizeChangedEvent initializeEngine (-5)).EnvironmentSize = -5 ∧
    initializeEngine.EnvironmentSize = 800 ∧
    EnvironmentSizeChangedEvent initializeEngine (-5) ≠ initializeEngine := by
  refine ⟨rfl, rfl, ?_⟩
  intro h
  have : (EnvironmentSizeChangedEvent initializeEngine (-5)).EnvironmentSize =
      initializeEngine.EnvironmentSize := by rw [h]
  simp [EnvironmentSizeChangedEvent, initializeEngine] at this

/-- C8 amended: the configuration handler performs no validation at all —
for every submitted value (valid or not) it unconditionally stores that
value as the engine's `EnvironmentSize` and leaves every other
configuration field unchanged; nothing is rejected at this boundary (the
only range restriction lives upstream in the GUI slider). -/
theorem C8_amended_unvalidated_assignment (cfg : EngineData ℚ) (value : ℤ) :
    (EnvironmentSizeChangedEvent cfg value).EnvironmentSize = value ∧
    (EnvironmentSizeChangedEvent cfg value).GravityStrength = cfg.GravityStrength ∧
    (EnvironmentSizeChangedEvent cfg value).CloseChargeStrength = cfg.CloseChargeStrength ∧
    (EnvironmentSizeChangedEvent cfg value).FarChargeStrength = cfg.FarChargeStrength ∧
    (EnvironmentSizeChangedEvent cfg value).AllowMerge = cfg.AllowMerge ∧
    (EnvironmentSizeChangedEvent cfg value).WallBounce = cfg.WallBounce ∧
    (EnvironmentSizeChangedEvent cfg value).bounceCompleteDistFactor =
      cfg.bounceCompleteDistFactor ∧
    (EnvironmentSizeChangedEvent cfg value).mergeMassRatioThreshold =
      cfg.mergeMassRatioThreshold ∧
    (EnvironmentSizeChangedEvent cfg value).mergeCloseChargeThreshold =
      cfg.mergeCloseChargeThreshold := by
  exact ⟨rfl, rfl, rfl, rfl, rfl, rfl, rfl, rfl, rfl⟩

/-- C2: the merge aggregation of a root with its (non-empty) partner set
conserves mass exactly — the new particle's mass is the sum of all
participants' masses (exact in this rational model, hence within any
floating-point epsilon) — and its charges are the mass-weighted averages
of the participants' charges, which remain inside the clamped ranges
`[-1,1]` and `[0,1]` (the participants' charges lie in range because
every write goes through the clamping setters, and masses are positive). -/
theorem C2_merge_mass_and_charge_averages (radiusFn : ℚ → ℤ) (newId : ℕ)
    (p : Particle ℚ) (partners : List (Particle ℚ))
    (hne : partners ≠ [])
    (hmp : 0 < p.mass) (hmo : ∀ o ∈ partners, 0 < o.mass)
    (hccp : -1 ≤ p.closeCharge ∧ p.closeCharge ≤ 1)
    (hfcp : 0 ≤ p.farCharge ∧ p.farCharge ≤ 1)
    (hcco : ∀ o ∈ partners, -1 ≤ o.closeCharge ∧ o.closeCharge ≤ 1)
    (hfco : ∀ o ∈ partners, 0 ≤ o.farCharge ∧ o.farCharge ≤ 1) :
    (aggregateCluster radiusFn newId p partners).mass =
        p.mass + (partners.map Particle.mass).sum ∧
    (aggregateCluster radiusFn newId p partners).closeCharge =
        (p.closeCharge * p.mass +
            (partners.map (fun o => o.closeCharge * o.mass)).sum) /
          (p.mass + (partners.map Particle.mass).sum) ∧
    (aggregateCluster radiusFn newId p partners).farCharge =
        (p.farCharge * p.mass +
            (partners.map (fun o => o.farCharge * o.mass)).sum) /
          (p.mass + (partners.map Particle.mass).sum) ∧
    -1 ≤ (aggregateCluster radiusFn newId p partners).closeCharge ∧
    (aggregateCluster radiusFn newId p partners).closeCharge ≤ 1 ∧
    0 ≤ (aggregateCluster radiusFn newId p partners).farCharge ∧
    (aggregateCluster radiusFn newId p partners).farCharge ≤ 1 := by
  have _ := hne
  have hMs0 : 0 ≤ (partners.map Particle.mass).sum := by
    apply List.sum_nonneg
    intro x hx
    rcases List.mem_map.mp hx with ⟨o, ho, rfl⟩
    exact le_of_lt (hmo o ho)
  have hM : 0 < p.mass + (partners.map Particle.mass).sum :=
    add_pos_of_pos_of_nonneg hmp hMs0
  have hccnum_le : p.closeCharge * p.mass +
      (partners.map (fun o => o.closeCharge * o.mass)).sum ≤
      p.mass + (partners.map Particle.mass).sum := by
    apply add_le_add
    · exact mul_le_of_le_one_left (le_of_lt hmp) hccp.2
    · exact List.sum_le_sum
        (fun o ho => mul_le_of_le_one_left (le_of_lt (hmo o ho)) (hcco o ho).2)
  have hccnum_ge : -(p.mass + (partners.map Particle.mass).sum) ≤
      p.closeCharge * p.mass +
        (partners.map (fun o => o.closeCharge * o.mass)).sum := by
    have h1 : -p.mass ≤ p.closeCharge * p.mass := by
      have := mul_le_mul_of_nonneg_right hccp.1 (le_of_lt hmp)
      simpa using this
    have h2 : -((partners.map Particle.mass).sum) ≤
        (partners.map (fun o => o.closeCharge * o.mass)).sum := by
      have h3 : (partners.map (fun o => -(Particle.mass o))).sum ≤
          (partners.map (fun o => o.closeCharge * o.mass)).sum := by
        apply List.sum_le_sum
        intro o ho
        have := mul_le_mul_of_nonneg_right (hcco o ho).1 (le_of_lt (hmo o ho))
        simpa using this
      rwa [sum_map_neg] at h3
    linarith
  have hfcnum_le : p.farCharge * p.mass +
      (partners.map (fun o => o.farCharge * o.mass)).sum ≤
      p.mass + (partners.map Particle.mass).sum := by
    apply add_le_add
    · exact mul_le_of_le_one_left (le_of_lt hmp) hfcp.2
    · exact List.sum_le_sum
        (fun o ho => mul_le_of_le_one_left (le_of_lt (hmo o ho)) (hfco o ho).2)
  have hfcnum_ge : 0 ≤ p.farCharge * p.mass +
      (partners.map (fun o => o.farCharge * o.mass)).sum := by
    apply add_nonneg
    · exact mul_nonneg hfcp.1 (le_of_lt hmp)
    · apply List.sum_nonneg
      intro x hx
      rcases List.mem_map.mp hx with ⟨o, ho, rfl⟩
      exact mul_nonneg (hfco o ho).1 (le_of_lt (hmo o ho))
  have hccX1 : -1 ≤ (p.closeCharge * p.mass +
      (partners.map (fun o => o.closeCharge * o.mass)).sum) /
      (p.mass + (partners.map Particle.mass).sum) := by
    rw [le_div_iff₀ hM]
    simpa using hccnum_ge
  have hccX2 : (p.closeCharge * p.mass +
      (partners.map (fun o => o.closeCharge * o.mass)).sum) /
      (p.mass + (partners.map Particle.mass).sum) ≤ 1 :=
    (div_le_one hM).mpr hccnum_le
  have hfcX1 : 0 ≤ (p.farCharge * p.mass +
      (partners.map (fun o => o.farCharge * o.mass)).sum) /
      (p.mass + (partners.map Particle.mass).sum) :=
    div_nonneg hfcnum_ge (le_of_lt hM)
  have hfcX2 : (p.farCharge * p.mass +
      (partners.map (fun o => o.farCharge * o.mass)).sum) /
      (p.mass + (partners.map Particle.mass).sum) ≤ 1 :=
    (div_le_one hM).mpr hfcnum_le
  have hmass : (aggregateCluster radiusFn newId p partners).mass =
      p.mass + (partners.map Particle.mass).sum := by
    simp [aggregateCluster, NewParticle, Particle.SetMass, Particle.SetCloseCharge,
      Particle.SetFarCharge, Particle.SetVelocity, Particle.SetTrackHistory,
      Particle.SetHistorySize, Particle.SetPositionHistory, aggFold_mass]
  have hcc : (aggregateCluster radiusFn newId p partners).closeCharge =
      (p.closeCharge * p.mass +
          (partners.map (fun o => o.closeCharge * o.mass)).sum) /
        (p.mass + (partners.map Particle.mass).sum) := by
    have hunfold : (aggregateCluster radiusFn newId p partners).closeCharge =
        goMax (-1) (goMin ((p.closeCharge * p.mass +
            (partners.map (fun o => o.closeCharge * o.mass)).sum) /
          (p.mass + (partners.map Particle.mass).sum)) 1) := by
      simp [aggregateCluster, NewParticle, Particle.SetMass, Particle.SetCloseCharge,
        Particle.SetFarCharge, Particle.SetVelocity, Particle.SetTrackHistory,
        Particle.SetHistorySize, Particle.SetPositionHistory, aggFold_cc, aggFold_mass]
    rw [hunfold, goMin, min_eq_left hccX2, goMax, max_eq_right hccX1]
  have hfc : (aggregateCluster radiusFn newId p partners).farCharge =
      (p.farCharge * p.mass +
          (partners.map (fun o => o.farCharge * o.mass)).sum) /
        (p.mass + (partners.map Particle.mass).sum) := by
    have hunfold : (aggregateCluster radiusFn newId p partners).farCharge =
        goMax 0 (goMin ((p.farCharge * p.mass +
            (partners.map (fun o => o.farCharge * o.mass)).sum) /
          (p.mass + (partners.map Particle.mass).sum)) 1) := by
      simp [aggregateCluster, NewParticle, Particle.SetMass, Particle.SetCloseCharge,
        Particle.SetFarCharge, Particle.SetVelocity, Particle.SetTrackHistory,
        Particle.SetHistorySize, Particle.SetPositionHistory, aggFold_fc, aggFold_mass]
    rw [hunfold, goMin, min_eq_left hfcX2, goMax, max_eq_right hfcX1]
  refine ⟨hmass, hcc, hfc, ?_, ?_, ?_, ?_⟩
  · rw [hcc]; exact hccX1
  · rw [hcc]; exact hccX2
  · rw [hfc]; exact hfcX1
  · rw [hfc]; exact hfcX2

/-- The concrete merge root used by the aggregation witness. -/
def pRoot : Particle ℚ :=
  plainParticle 1 100 3 0 0 0 0 (Rat.divInt 1 2) (Rat.divInt 1 2)

/-- The concrete merge partner used by the aggregation witness. -/
def oPart : Particle ℚ :=
  plainParticle 2 10 1 1 0 0 0 (Rat.divInt (-1) 2) 1

/-- C2 witness: the aggregation theorem applied to a concrete
100-mass root merging a 10-mass partner of opposite close charge. -/
theorem C2_merge_witness :
    ([oPart] ≠ ([] : List (Particle ℚ))) ∧ (0 : ℚ) < pRoot.mass ∧
    (∀ o ∈ [oPart], (0 : ℚ) < o.mass) ∧
    (aggregateCluster (fun _ => 1) 5 pRoot [oPart]).mass =
      pRoot.mass + ([oPart].map Particle.mass).sum ∧
    -1 ≤ (aggregateCluster (fun _ => 1) 5 pRoot [oPart]).closeCharge ∧
    (aggregateCluster (fun _ => 1) 5 pRoot [oPart]).closeCharge ≤ 1 := by
  have h := C2_merge_mass_and_charge_averages (fun _ => 1) 5 pRoot [oPart]
    (by decide) (by decide) (by decide) (by decide) (by decide)
    (by decide) (by decide)
  exact ⟨by decide, by decide, by decide, h.1, h.2.2.2.1, h.2.2.2.2.1⟩

/-- C3: for a newly colliding pair, classification yields a merge exactly
when merging is allowed, the mass ratio `max/min` exceeds the threshold,
and the close charges have different sign bits or combined magnitude
below the charge threshold; on a merge both particles are flagged
`merging` and registered in each other's `MergingWith`, otherwise the
pair bounces (`p` gets the bounce state).  The last conjunct ties the
classifier to the force loop: under the new-collision guard (not self,
not merge partners, not already bouncing against each other, separation
below combined radii) the inner step hands the pair to the classifier
and contributes no force. -/
theorem C3_collision_classification (cfg : EngineData ℚ) (p o : Particle ℚ)
    (hmp : 0 < p.mass) (hmo : 0 < o.mass)
    (hop : memberId p.id o.mergingWith = false) :
    (mergeCondition qOps cfg p o = true ↔
      (cfg.AllowMerge = true ∧
        cfg.mergeMassRatioThreshold < goMax p.mass o.mass / goMin p.mass o.mass ∧
        ((p.closeCharge < 0 ↔ ¬(o.closeCharge < 0)) ∨
          |p.closeCharge| + |o.closeCharge| < cfg.mergeCloseChargeThreshold))) ∧
    (mergeCondition qOps cfg p o = true →
      ((getP qOps (resolveNewCollision qOps cfg [p, o] 0 1) 0).merging = true ∧
        memberId o.id
          (getP qOps (resolveNewCollision qOps cfg [p, o] 0 1) 0).mergingWith = true ∧
        (getP qOps (resolveNewCollision qOps cfg [p, o] 0 1) 1).merging = true ∧
        memberId p.id
          (getP qOps (resolveNewCollision qOps cfg [p, o] 0 1) 1).mergingWith = true)) ∧
    (mergeCondition qOps cfg p o = false →
      ((getP qOps (resolveNewCollision qOps cfg [p, o] 0 1) 0).bouncing = true ∧
        (getP qOps (resolveNewCollision qOps cfg [p, o] 0 1) 0).bouncingAgainst =
          some o.id ∧
        (getP qOps (resolveNewCollision qOps cfg [p, o] 0 1) 0).merging = p.merging ∧
        getP qOps (resolveNewCollision qOps cfg [p, o] 0 1) 1 = o)) ∧
    (∀ (magFn : Vec ℚ → ℚ) (roster : List (Particle ℚ)) (pi oi : ℕ)
        (g c f : Vec ℚ) (ct : ℕ),
      memberId (getP qOps roster oi).id (getP qOps roster pi).mergingWith = false →
      ((getP qOps roster pi).id == (getP qOps roster oi).id) = false →
      ((getP qOps roster pi).bouncing &&
        (getP qOps roster pi).bouncingAgainst == some (getP qOps roster oi).id) = false →
      qOps.lt (magFn (vsub qOps (getP qOps roster pi).position
          (getP qOps roster oi).position))
        (qOps.ofInt ((getP qOps roster pi).radius +
          (getP qOps roster oi).radius)) = true →
      velInnerStep qOps magFn cfg pi (roster, g, c, f, ct) oi =
        (resolveNewCollision qOps cfg roster pi oi, g, c, f, ct)) := by
  have _ := hmp
  have _ := hmo
  refine ⟨?_, ?_, ?_, ?_⟩
  · constructor
    · intro h
      rw [mergeCondition] at h
      simp only [Bool.and_eq_true, Bool.or_eq_true] at h
      obtain ⟨⟨hA, hratio⟩, hcharge⟩ := h
      refine ⟨hA, ?_, ?_⟩
      · rw [← massRatioOf_eq_max_min cfg p o hA]
        exact (qlt_iff _ _).mp hratio
      · rcases hcharge with hs | hlt
        · left
          simp only [qOps, decide_eq_true_eq] at hs
          by_cases h1 : p.closeCharge < 0 <;> by_cases h2 : o.closeCharge < 0 <;>
            simp [h1, h2] at hs ⊢
        · right
          have := (qlt_iff _ _).mp hlt
          simpa [qOps] using this
    · intro ⟨hA, hratio, hcharge⟩
      rw [mergeCondition]
      simp only [Bool.and_eq_true, Bool.or_eq_true]
      refine ⟨⟨hA, ?_⟩, ?_⟩
      · rw [massRatioOf_eq_max_min cfg p o hA]
        exact (qlt_iff _ _).mpr hratio
      · rcases hcharge with hs | hlt
        · left
          simp only [qOps, decide_eq_true_eq]
          by_cases h1 : p.closeCharge < 0 <;> by_cases h2 : o.closeCharge < 0 <;>
            simp [h1, h2] at hs ⊢
        · right
          rw [qlt_iff]
          simpa [qOps] using hlt
  · intro h
    rw [resolveNewCollision_merge cfg p o h]
    simp only [getP_pair_zero, getP_pair_one, hop, Bool.false_eq_true, if_false]
    exact ⟨trivial, memberId_insertId_self o.id p.mergingWith, trivial,
      memberId_insertId_self p.id o.mergingWith⟩
  · intro h
    obtain ⟨v, hv⟩ := resolveNewCollision_bounce cfg p o h
    rw [hv]
    exact ⟨rfl, rfl, rfl, rfl⟩
  · intro magFn roster pi oi g c f ct h1 h2 h3 h4
    simp [velInnerStep, h1, h2, h3, h4]

/-- The §4.3 extent bound of the spec, widened by a rounding epsilon:
the coordinate lies in `[radius, environmentSize - radius - 1]` extended
by `eps` on both sides. -/
def extentWithin (eps : ℚ) (envSize : ℤ) (r : ℤ) (c : ℚ) : Prop :=
  (r : ℚ) - eps ≤ c ∧ c ≤ (envSize : ℚ) - (r : ℚ) - 1 + eps

/-- An untriggered wall check bounds the true coordinate: if the
truncated position passes the `[radius, env-1-radius]` test and the
radius is at least 1, the exact coordinate lies in `[radius, env-radius]`
(the upper end overshoots the integer bound by at most the truncation
loss, which is below 1). -/
lemma gotrunc_in_range {r env : ℤ} {c : ℚ} (hr : 1 ≤ r)
    (h1 : 0 ≤ gotrunc c - r) (h2 : gotrunc c + r ≤ env - 1) :
    (r : ℚ) ≤ c ∧ c ≤ (env : ℚ) - (r : ℚ) := by
  by_cases hc : 0 ≤ c
  · have hg : gotrunc c = ⌊c⌋ := if_pos hc
    rw [hg] at h1 h2
    have hfl : r ≤ ⌊c⌋ := by omega
    have hfu : ⌊c⌋ + 1 ≤ env - r := by omega
    constructor
    · exact Int.le_floor.mp hfl
    · have ha := Int.lt_floor_add_one c
      have hb : ((⌊c⌋ : ℚ) + 1) ≤ (env : ℚ) - (r : ℚ) := by
        have hc2 : ((⌊c⌋ + 1 : ℤ) : ℚ) ≤ ((env - r : ℤ) : ℚ) := by
          exact_mod_cast hfu
        push_cast at hc2
        linarith
      linarith
  · have hg : gotrunc c = ⌈c⌉ := if_neg hc
    have hcp : (⌈c⌉ : ℤ) ≤ 0 := Int.ceil_le.mpr (by
      push_cast
      linarith [not_le.mp hc])
    rw [hg] at h1
    exact absurd h1 (by omega)

/-- The position update leaves the radius untouched. -/
lemma UpdatePosition_radius (p : Particle ℚ) :
    (p.UpdatePosition qOps).radius = p.radius := by
  rw [Particle.UpdatePosition]
  by_cases ht : p.trackHistory
  · simp only [ht, if_true]
    by_cases hlen : ((p.positionHistory ++ [p.position]).length : ℤ) > p.historySize
    · simp only [hlen, if_pos]
      rfl
    · simp only [hlen, if_neg, if_false]
      rfl
  · simp only [ht, Bool.false_eq_true, if_false]
    rfl

/-- The merged particle's radius is the radius function applied to the
aggregated mass. -/
lemma aggregateCluster_radius (radiusFn : ℚ → ℤ) (nid : ℕ) (root : Particle ℚ)
    (partners : List (Particle ℚ)) :
    ∃ m, (aggregateCluster radiusFn nid root partners).radius = radiusFn m := by
  exact ⟨_, rfl⟩

/-- Per-particle wall-boundary resolution keeps the horizontal extent
within bounds up to epsilon 1 (clamped exactly when triggered, within
the truncation loss when not); the vertical extent is likewise bounded
unless the horizontal check fired, in which case the vertical position
is left exactly as it was — the single-axis limitation. -/
lemma wallStep_bounds (cfg : EngineData ℚ) (p : Particle ℚ)
    (hr : 1 ≤ p.radius) (hr2 : 2 * p.radius ≤ cfg.EnvironmentSize - 1) :
    (wallStep cfg p).radius = p.radius ∧
    extentWithin 1 cfg.EnvironmentSize p.radius (wallStep cfg p).position.1 ∧
    ((xWallViolated cfg p ∧ (wallStep cfg p).position.2 = p.position.2) ∨
      extentWithin 1 cfg.EnvironmentSize p.radius (wallStep cfg p).position.2) := by
  have hle : (p.radius : ℚ) ≤ (cfg.EnvironmentSize : ℚ) - (p.radius : ℚ) - 1 := by
    have h : ((2 * p.radius : ℤ) : ℚ) ≤ ((cfg.EnvironmentSize - 1 : ℤ) : ℚ) := by
      exact_mod_cast hr2
    push_cast at h
    linarith
  have hclamp : ∀ c : ℚ,
      extentWithin 1 cfg.EnvironmentSize p.radius
        (goMax (p.radius : ℚ)
          (goMin c ((cfg.EnvironmentSize : ℚ) - (p.radius : ℚ) - 1))) := by
    intro c
    rw [extentWithin, goMax, goMin]
    constructor
    · have h := le_max_left (p.radius : ℚ)
        (min c ((cfg.EnvironmentSize : ℚ) - (p.radius : ℚ) - 1))
      linarith
    · have h := max_le hle
        (min_le_right c ((cfg.EnvironmentSize : ℚ) - (p.radius : ℚ) - 1))
      linarith
  by_cases hx : xWallViolated cfg p
  · rw [wallStep, if_pos hx]
    exact ⟨rfl, hclamp p.position.1, Or.inl ⟨hx, rfl⟩⟩
  · have hx' := hx
    rw [xWallViolated] at hx'
    push_neg at hx'
    obtain ⟨hx1, hx2⟩ := hx'
    obtain ⟨hxa, hxb⟩ := gotrunc_in_range hr (by omega) hx2
    by_cases hy : yWallViolated cfg p
    · rw [wallStep, if_neg hx, if_pos hy]
      refine ⟨rfl, ?_, Or.inr (hclamp p.position.2)⟩
      show extentWithin 1 cfg.EnvironmentSize p.radius p.position.1
      exact ⟨by linarith, by linarith⟩
    · rw [wallStep, if_neg hx, if_neg hy]
      have hy' := hy
      rw [yWallViolated] at hy'
      push_neg at hy'
      obtain ⟨hy1, hy2⟩ := hy'
      obtain ⟨hya, hyb⟩ := gotrunc_in_range hr (by omega) hy2
      refine ⟨rfl, ⟨by linarith, by linarith⟩,
        Or.inr ⟨by linarith, by linarith⟩⟩

/-- The radius bound needed by the wall phase (positive radius, circle
diameter below the environment width) is preserved by every phase before
the wall phase: no mutation before it touches the radius except the
construction of merged particles, whose radius comes from the radius
function. -/
lemma preWall_radius_bound (magFn : Vec ℚ → ℚ) (radiusFn : ℚ → ℤ)
    (cfg : EngineData ℚ) (nextId : ℕ) (roster : List (Particle ℚ))
    (hrad : ∀ m, 1 ≤ radiusFn m ∧ 2 * radiusFn m ≤ cfg.EnvironmentSize - 1)
    (hall : ∀ p ∈ roster, 1 ≤ p.radius ∧ 2 * p.radius ≤ cfg.EnvironmentSize - 1) :
    ∀ q ∈ handleMergers radiusFn cfg nextId (sortByMassDesc
      (updateParticlePositions qOps (updateParticleVelocities qOps magFn cfg roster))),
      1 ≤ q.radius ∧ 2 * q.radius ≤ cfg.EnvironmentSize - 1 := by
  have h1 : ∀ q ∈ updateParticleVelocities qOps magFn cfg roster,
      1 ≤ q.radius ∧ 2 * q.radius ≤ cfg.EnvironmentSize - 1 := by
    refine updateParticleVelocities_invariant cfg ?_ ?_ ?_ ?_ magFn roster hall
    · intro p hp
      exact hp
    · intro _ p oid hp
      exact hp
    · intro p oid v hp
      exact hp
    · intro p v hp
      exact hp
  have h2 : ∀ q ∈ updateParticlePositions qOps
      (updateParticleVelocities qOps magFn cfg roster),
      1 ≤ q.radius ∧ 2 * q.radius ≤ cfg.EnvironmentSize - 1 := by
    intro q hq
    rcases List.mem_map.mp hq with ⟨p, hp, rfl⟩
    rw [UpdatePosition_radius]
    exact h1 p hp
  have h3 : ∀ q ∈ sortByMassDesc (updateParticlePositions qOps
      (updateParticleVelocities qOps magFn cfg roster)),
      1 ≤ q.radius ∧ 2 * q.radius ≤ cfg.EnvironmentSize - 1 := by
    intro q hq
    exact h2 q ((sortByMassDesc_perm _).mem_iff.mp hq)
  refine handleMergers_invariant ?_ ?_ ?_ cfg nextId _ h3
  · intro p hp
    exact hp
  · intro p pid hp
    exact hp
  · intro nid root partners _
    obtain ⟨m, hm⟩ := aggregateCluster_radius radiusFn nid root partners
    rw [hm]
    exact hrad m

/-- Radius function for concrete runs: every particle has radius 1. -/
def unitRadiusFn : ℚ → ℤ := fun _ => 1

/-- The default configuration with the three force strengths set to
zero: concrete wall-phase traces under it are exact (every force term
is exactly zero in binary64 as well, so the rational model and the
program compute identical values at every step). -/
def zeroForceEngine : EngineData ℚ :=
  { initializeEngine with
      GravityStrength := 0
      CloseChargeStrength := 0
      FarChargeStrength := 0 }

/-- A particle of radius 1 resting at `(-5, -5)`: its circle extends
beyond both the left and the top wall at once. -/
def cornerP : Particle ℚ := plainParticle 3 4 1 (-5) (-5) 0 0 0 0

/-- A second, in-bounds particle far from `cornerP`, present so that
every particle has a contributing force neighbour (`ct = 1`) and the
unguarded zero-count division of `updateParticleVelocities` (the C1
defect) is never reached on this trace. -/
def spectatorP : Particle ℚ := plainParticle 4 2 1 295 395 0 0 0 0

/-- The roster as the velocity loop of `updateParticleVelocities`
reaches particle `k`: the outer fold run over the first `k` indices. -/
def velPhaseRosterAt (magFn : Vec ℚ → ℚ) (cfg : EngineData ℚ)
    (roster : List (Particle ℚ)) (k : ℕ) : List (Particle ℚ) :=
  ((List.range roster.length).take k).foldl (velOuterStep qOps magFn cfg) roster

/-- The number of neighbours contributing force to particle `k` during
the velocity phase — the `ct` divisor of particle_update.go:314-321.
The program divides the accumulated forces by this count without
guarding against zero; a trace is faithful to binary64 only when this
count is at least 1 for every particle (compare C1). -/
def velContribCount (magFn : Vec ℚ → ℚ) (cfg : EngineData ℚ)
    (roster : List (Particle ℚ)) (k : ℕ) : ℕ :=
  ((List.range (velPhaseRosterAt magFn cfg roster k).length).foldl
    (velInnerStep qOps magFn cfg k)
    (velPhaseRosterAt magFn cfg roster k, vzero qOps, vzero qOps, vzero qOps, 0)).2.2.2.2

/-- Unfolding of one outer velocity step given the value of its inner
accumulation fold. -/
lemma velOuterStep_eq {α : Type} (ops : NumOps α) (magFn : Vec α → α)
    (cfg : EngineData α) (roster : List (Particle α)) (pi : ℕ)
    (roster1 : List (Particle α)) (g c f : Vec α) (ct : ℕ)
    (h : (List.range roster.length).foldl (velInnerStep ops magFn cfg pi)
      (roster, vzero ops, vzero ops, vzero ops, 0) = (roster1, g, c, f, ct)) :
    velOuterStep ops magFn cfg roster pi =
      roster1.set pi ((getP ops roster1 pi).SetVelocity
        (vadd ops (vadd ops (vadd ops (getP ops roster1 pi).velocity
            (vscale ops (ops.div ops.one (ops.ofInt (ct : ℤ))) g))
          (vscale ops (ops.div ops.one (ops.ofInt (ct : ℤ))) c))
        (vscale ops (ops.div ops.one (ops.ofInt (ct : ℤ))) f))) := by
  rw [velOuterStep, h]

/-- The separation of the concrete corner/spectator pair has exact
magnitude 500 (a 300-400-500 right triangle, exact in binary64 too). -/
lemma magPairA : magQ ((-300 : ℚ), (-400 : ℚ)) = 500 := by
  have hs : Nat.sqrt 250000 = 500 := by norm_num [Nat.sqrt]
  norm_num [magQ, ratSqrt, hs, show Int.toNat 250000 = 250000 from rfl]

/-- The reverse separation of the pair, likewise of magnitude 500. -/
lemma magPairB : magQ ((300 : ℚ), (400 : ℚ)) = 500 := by
  have hs : Nat.sqrt 250000 = 500 := by norm_num [Nat.sqrt]
  norm_num [magQ, ratSqrt, hs, show Int.toNat 250000 = 250000 from rfl]

/-- Inner velocity step of `cornerP` against itself: skipped. -/
lemma cornerStep00 : velInnerStep qOps magQ zeroForceEngine 0
    ([cornerP, spectatorP], ((0:ℚ),(0:ℚ)), ((0:ℚ),(0:ℚ)), ((0:ℚ),(0:ℚ)), 0) 0 =
    ([cornerP, spectatorP], ((0:ℚ),(0:ℚ)), ((0:ℚ),(0:ℚ)), ((0:ℚ),(0:ℚ)), 0) := by
  norm_num [velInnerStep, getP, memberId, qOps, cornerP, spectatorP, plainParticle]

/-- Inner velocity step of `cornerP` against `spectatorP`: no collision
at distance 500, zero forces accumulated, count becomes 1. -/
lemma cornerStep01 : velInnerStep qOps magQ zeroForceEngine 0
    ([cornerP, spectatorP], ((0:ℚ),(0:ℚ)), ((0:ℚ),(0:ℚ)), ((0:ℚ),(0:ℚ)), 0) 1 =
    ([cornerP, spectatorP], ((0:ℚ),(0:ℚ)), ((0:ℚ),(0:ℚ)), ((0:ℚ),(0:ℚ)), 1) := by
  norm_num [velInnerStep, getP, memberId, vadd, vsub, vscale, qOps,
    cornerP, spectatorP, plainParticle, zeroForceEngine, initializeEngine,
    magPairA, pow3, pow4]

/-- Inner velocity step of `spectatorP` against `cornerP`: zero forces,
count becomes 1. -/
lemma cornerStep10 : velInnerStep qOps magQ zeroForceEngine 1
    ([cornerP, spectatorP], ((0:ℚ),(0:ℚ)), ((0:ℚ),(0:ℚ)), ((0:ℚ),(0:ℚ)), 0) 0 =
    ([cornerP, spectatorP], ((0:ℚ),(0:ℚ)), ((0:ℚ),(0:ℚ)), ((0:ℚ),(0:ℚ)), 1) := by
  norm_num [velInnerStep, getP, memberId, vadd, vsub, vscale, qOps,
    cornerP, spectatorP, plainParticle, zeroForceEngine, initializeEngine,
    magPairB, pow3, pow4]

/-- Inner velocity step of `spectatorP` against itself: skipped. -/
lemma cornerStep11 : velInnerStep qOps magQ zeroForceEngine 1
    ([cornerP, spectatorP], ((0:ℚ),(0:ℚ)), ((0:ℚ),(0:ℚ)), ((0:ℚ),(0:ℚ)), 1) 1 =
    ([cornerP, spectatorP], ((0:ℚ),(0:ℚ)), ((0:ℚ),(0:ℚ)), ((0:ℚ),(0:ℚ)), 1) := by
  norm_num [velInnerStep, getP, memberId, qOps, cornerP, spectatorP, plainParticle]

/-- The inner accumulation fold for `cornerP`: zero forces, count 1. -/
lemma cornerFold0 : (List.range [cornerP, spectatorP].length).foldl
    (velInnerStep qOps magQ zeroForceEngine 0)
    ([cornerP, spectatorP], vzero qOps, vzero qOps, vzero qOps, 0) =
    ([cornerP, spectatorP], ((0:ℚ),(0:ℚ)), ((0:ℚ),(0:ℚ)), ((0:ℚ),(0:ℚ)), 1) := by
  norm_num [cornerStep00, cornerStep01, show List.range 2 = [0, 1] from rfl,
    List.foldl_cons, List.foldl_nil, vzero,
    show qOps.zero = (0:ℚ) from rfl, -Prod.mk_zero_zero]

/-- The inner accumulation fold for `spectatorP`: zero forces, count 1. -/
lemma cornerFold1 : (List.range [cornerP, spectatorP].length).foldl
    (velInnerStep qOps magQ zeroForceEngine 1)
    ([cornerP, spectatorP], vzero qOps, vzero qOps, vzero qOps, 0) =
    ([cornerP, spectatorP], ((0:ℚ),(0:ℚ)), ((0:ℚ),(0:ℚ)), ((0:ℚ),(0:ℚ)), 1) := by
  norm_num [cornerStep10, cornerStep11, show List.range 2 = [0, 1] from rfl,
    List.foldl_cons, List.foldl_nil, vzero,
    show qOps.zero = (0:ℚ) from rfl, -Prod.mk_zero_zero]

/-- Outer velocity step for `cornerP`: dividing the zero accumulators by
the count 1 leaves the velocity unchanged. -/
lemma cornerOuter0 : velOuterStep qOps magQ zeroForceEngine [cornerP, spectatorP] 0 =
    [cornerP, spectatorP] := by
  rw [velOuterStep_eq qOps magQ zeroForceEngine [cornerP, spectatorP] 0
    [cornerP, spectatorP] ((0:ℚ),(0:ℚ)) ((0:ℚ),(0:ℚ)) ((0:ℚ),(0:ℚ)) 1 cornerFold0]
  have hset : cornerP.SetVelocity ((0:ℚ), (0:ℚ)) = cornerP := by
    norm_num [cornerP, plainParticle, Particle.SetVelocity]
  norm_num [hset,
    show getP qOps [cornerP, spectatorP] 0 = cornerP from rfl,
    show cornerP.velocity = ((0:ℚ), (0:ℚ)) from rfl,
    show qOps.one = (1:ℚ) from rfl,
    show qOps.ofInt = fun n : ℤ => (n : ℚ) from rfl,
    show qOps.div = fun a b : ℚ => a / b from rfl,
    show qOps.add = fun a b : ℚ => a + b from rfl,
    show qOps.mul = fun a b : ℚ => a * b from rfl,
    vadd, vscale, -Prod.mk_zero_zero]

/-- Outer velocity step for `spectatorP`: velocity unchanged. -/
lemma cornerOuter1 : velOuterStep qOps magQ zeroForceEngine [cornerP, spectatorP] 1 =
    [cornerP, spectatorP] := by
  rw [velOuterStep_eq qOps magQ zeroForceEngine [cornerP, spectatorP] 1
    [cornerP, spectatorP] ((0:ℚ),(0:ℚ)) ((0:ℚ),(0:ℚ)) ((0:ℚ),(0:ℚ)) 1 cornerFold1]
  have hset : spectatorP.SetVelocity ((0:ℚ), (0:ℚ)) = spectatorP := by
    norm_num [spectatorP, plainParticle, Particle.SetVelocity]
  norm_num [hset,
    show getP qOps [cornerP, spectatorP] 1 = spectatorP from rfl,
    show spectatorP.velocity = ((0:ℚ), (0:ℚ)) from rfl,
    show qOps.one = (1:ℚ) from rfl,
    show qOps.ofInt = fun n : ℤ => (n : ℚ) from rfl,
    show qOps.div = fun a b : ℚ => a / b from rfl,
    show qOps.add = fun a b : ℚ => a + b from rfl,
    show qOps.mul = fun a b : ℚ => a * b from rfl,
    vadd, vscale, -Prod.mk_zero_zero]

/-- The whole velocity phase on the corner/spectator pair: unchanged. -/
lemma velPhaseCornerPair :
    updateParticleVelocities qOps magQ zeroForceEngine [cornerP, spectatorP] =
    [cornerP, spectatorP] := by
  norm_num [updateParticleVelocities, cornerOuter0, cornerOuter1,
    show List.range 2 = [0, 1] from rfl, List.foldl_cons, List.foldl_nil]

/-- The corner particle has exactly one contributing neighbour. -/
lemma cornerContrib0 : velContribCount magQ zeroForceEngine [cornerP, spectatorP] 0 = 1 := by
  have hr0 : velPhaseRosterAt magQ zeroForceEngine [cornerP, spectatorP] 0 =
      [cornerP, spectatorP] := by
    simp [velPhaseRosterAt]
  rw [velContribCount, hr0, cornerFold0]

/-- The spectator particle has exactly one contributing neighbour. -/
lemma cornerContrib1 : velContribCount magQ zeroForceEngine [cornerP, spectatorP] 1 = 1 := by
  have hr1 : velPhaseRosterAt magQ zeroForceEngine [cornerP, spectatorP] 1 =
      [cornerP, spectatorP] := by
    rw [velPhaseRosterAt]
    norm_num [show List.range 2 = [0, 1] from rfl, List.take_succ_cons,
      List.take_zero, List.foldl_cons, List.foldl_nil, cornerOuter0]
  rw [velContribCount, hr1, cornerFold1]

/-- The position phase on the stationary pair: unchanged. -/
lemma posPhaseCornerPair :
    updateParticlePositions qOps [cornerP, spectatorP] = [cornerP, spectatorP] := by
  have hA : cornerP.UpdatePosition qOps = cornerP := by
    norm_num [Particle.UpdatePosition, Particle.SetPosition, vadd, qOps,
      cornerP, plainParticle]
  have hB : spectatorP.UpdatePosition qOps = spectatorP := by
    norm_num [Particle.UpdatePosition, Particle.SetPosition, vadd, qOps,
      spectatorP, plainParticle]
  simp [updateParticlePositions, hA, hB]

/-- The sort keeps the pair in place (masses 4 and 2 already descend). -/
lemma sortPhaseCornerPair :
    sortByMassDesc [cornerP, spectatorP] = [cornerP, spectatorP] := by
  have hm : spectatorP.mass ≤ cornerP.mass := by
    norm_num [cornerP, spectatorP, plainParticle]
  simp [sortByMassDesc, insertByMassDesc, hm]

/-- The merge phase is a no-op: neither particle is flagged merging. -/
lemma mergePhaseCornerPair :
    handleMergers unitRadiusFn zeroForceEngine 9 [cornerP, spectatorP] =
    [cornerP, spectatorP] := by
  norm_num [handleMergers, mergeStep, sortDescNat,
    show List.range 2 = [0, 1] from rfl, List.foldl_cons, List.foldl_nil,
    show getP qOps [cornerP, spectatorP] 0 = cornerP from rfl,
    show getP qOps [cornerP, spectatorP] 1 = spectatorP from rfl,
    show cornerP.merging = false from rfl,
    show spectatorP.merging = false from rfl,
    show zeroForceEngine.AllowMerge = true from rfl]

/-- The wall phase on the corner particle clamps its x position to the
radius and leaves its y position at -5: only the horizontal axis is
resolved. -/
lemma wallCornerP : wallStep zeroForceEngine cornerP = { cornerP with position := (1, -5) } := by
  have hx : xWallViolated zeroForceEngine cornerP := by decide
  rw [wallStep, if_pos hx]
  norm_num [Particle.SetPosition, Particle.SetVelocity, goMax, goMin, vdot, vsub,
    vscale, qOps, cornerP, plainParticle, zeroForceEngine, initializeEngine,
    max_def, min_def]

/-- The wall phase leaves the in-bounds spectator untouched. -/
lemma wallSpectatorP : wallStep zeroForceEngine spectatorP = spectatorP := by
  have hx : ¬ xWallViolated zeroForceEngine spectatorP := by decide
  have hy : ¬ yWallViolated zeroForceEngine spectatorP := by decide
  rw [wallStep, if_neg hx, if_neg hy]

/-- The complete tick on the corner/spectator pair: the corner particle
finishes at `(1, -5)`, its vertical violation unresolved. -/
lemma tickCornerPair :
    UpdateParticles magQ unitRadiusFn zeroForceEngine 9 [cornerP, spectatorP] =
    [{ cornerP with position := (1, -5) }, spectatorP] := by
  rw [UpdateParticles, velPhaseCornerPair, posPhaseCornerPair, sortPhaseCornerPair,
    mergePhaseCornerPair]
  have hwb : zeroForceEngine.WallBounce = true := rfl
  rw [if_pos hwb, List.map_cons, List.map_cons, List.map_nil, wallCornerP,
    wallSpectatorP]

/-- The separation of the twin pair has approximate magnitude 14 (the
`ratSqrt` stand-in for the irrational `sqrt 200`). -/
lemma magTwinA : magQ ((-10 : ℚ), (-10 : ℚ)) = 14 := by
  have hs : Nat.sqrt 200 = 14 := by norm_num [Nat.sqrt]
  norm_num [magQ, ratSqrt, hs, show Int.toNat 200 = 200 from rfl]

/-- The reverse separation of the twin pair. -/
lemma magTwinB : magQ ((10 : ℚ), (10 : ℚ)) = 14 := by
  have hs : Nat.sqrt 200 = 14 := by norm_num [Nat.sqrt]
  norm_num [magQ, ratSqrt, hs, show Int.toNat 200 = 200 from rfl]

/-- Inner velocity step of `twinA` against itself: skipped. -/
lemma twinStep00 : velInnerStep qOps magQ zeroForceEngine 0
    ([twinA, twinB], ((0:ℚ),(0:ℚ)), ((0:ℚ),(0:ℚ)), ((0:ℚ),(0:ℚ)), 0) 0 =
    ([twinA, twinB], ((0:ℚ),(0:ℚ)), ((0:ℚ),(0:ℚ)), ((0:ℚ),(0:ℚ)), 0) := by
  norm_num [velInnerStep, getP, memberId, qOps, twinA, twinB, plainParticle]

/-- Inner velocity step of `twinA` against `twinB`: no collision at
distance 14, zero forces, count becomes 1. -/
lemma twinStep01 : velInnerStep qOps magQ zeroForceEngine 0
    ([twinA, twinB], ((0:ℚ),(0:ℚ)), ((0:ℚ),(0:ℚ)), ((0:ℚ),(0:ℚ)), 0) 1 =
    ([twinA, twinB], ((0:ℚ),(0:ℚ)), ((0:ℚ),(0:ℚ)), ((0:ℚ),(0:ℚ)), 1) := by
  norm_num [velInnerStep, getP, memberId, vadd, vsub, vscale, qOps,
    twinA, twinB, plainParticle, zeroForceEngine, initializeEngine,
    magTwinA, pow3, pow4]

/-- Inner velocity step of `twinB` against `twinA`: count becomes 1. -/
lemma twinStep10 : velInnerStep qOps magQ zeroForceEngine 1
    ([twinA, twinB], ((0:ℚ),(0:ℚ)), ((0:ℚ),(0:ℚ)), ((0:ℚ),(0:ℚ)), 0) 0 =
    ([twinA, twinB], ((0:ℚ),(0:ℚ)), ((0:ℚ),(0:ℚ)), ((0:ℚ),(0:ℚ)), 1) := by
  norm_num [velInnerStep, getP, memberId, vadd, vsub, vscale, qOps,
    twinA, twinB, plainParticle, zeroForceEngine, initializeEngine,
    magTwinB, pow3, pow4]

/-- Inner velocity step of `twinB` against itself: skipped. -/
lemma twinStep11 : velInnerStep qOps magQ zeroForceEngine 1
    ([twinA, twinB], ((0:ℚ),(0:ℚ)), ((0:ℚ),(0:ℚ)), ((0:ℚ),(0:ℚ)), 1) 1 =
    ([twinA, twinB], ((0:ℚ),(0:ℚ)), ((0:ℚ),(0:ℚ)), ((0:ℚ),(0:ℚ)), 1) := by
  norm_num [velInnerStep, getP, memberId, qOps, twinA, twinB, plainParticle]

/-- The inner accumulation fold for `twinA`: zero forces, count 1. -/
lemma twinFold0 : (List.range [twinA, twinB].length).foldl
    (velInnerStep qOps magQ zeroForceEngine 0)
    ([twinA, twinB], vzero qOps, vzero qOps, vzero qOps, 0) =
    ([twinA, twinB], ((0:ℚ),(0:ℚ)), ((0:ℚ),(0:ℚ)), ((0:ℚ),(0:ℚ)), 1) := by
  norm_num [twinStep00, twinStep01, show List.range 2 = [0, 1] from rfl,
    List.foldl_cons, List.foldl_nil, vzero,
    show qOps.zero = (0:ℚ) from rfl, -Prod.mk_zero_zero]

/-- The inner accumulation fold for `twinB`: zero forces, count 1. -/
lemma twinFold1 : (List.range [twinA, twinB].length).foldl
    (velInnerStep qOps magQ zeroForceEngine 1)
    ([twinA, twinB], vzero qOps, vzero qOps, vzero qOps, 0) =
    ([twinA, twinB], ((0:ℚ),(0:ℚ)), ((0:ℚ),(0:ℚ)), ((0:ℚ),(0:ℚ)), 1) := by
  norm_num [twinStep10, twinStep11, show List.range 2 = [0, 1] from rfl,
    List.foldl_cons, List.foldl_nil, vzero,
    show qOps.zero = (0:ℚ) from rfl, -Prod.mk_zero_zero]

/-- Outer velocity step for `twinA`: velocity unchanged. -/
lemma twinOuter0 : velOuterStep qOps magQ zeroForceEngine [twinA, twinB] 0 =
    [twinA, twinB] := by
  rw [velOuterStep_eq qOps magQ zeroForceEngine [twinA, twinB] 0
    [twinA, twinB] ((0:ℚ),(0:ℚ)) ((0:ℚ),(0:ℚ)) ((0:ℚ),(0:ℚ)) 1 twinFold0]
  have hset : twinA.SetVelocity ((0:ℚ), (0:ℚ)) = twinA := by
    norm_num [twinA, plainParticle, Particle.SetVelocity]
  norm_num [hset,
    show getP qOps [twinA, twinB] 0 = twinA from rfl,
    show twinA.velocity = ((0:ℚ), (0:ℚ)) from rfl,
    show qOps.one = (1:ℚ) from rfl,
    show qOps.ofInt = fun n : ℤ => (n : ℚ) from rfl,
    show qOps.div = fun a b : ℚ => a / b from rfl,
    show qOps.add = fun a b : ℚ => a + b from rfl,
    show qOps.mul = fun a b : ℚ => a * b from rfl,
    vadd, vscale, -Prod.mk_zero_zero]

/-- The first twin has exactly one contributing neighbour. -/
lemma twinContrib0 : velContribCount magQ zeroForceEngine [twinA, twinB] 0 = 1 := by
  have hr0 : velPhaseRosterAt magQ zeroForceEngine [twinA, twinB] 0 =
      [twinA, twinB] := by
    simp [velPhaseRosterAt]
  rw [velContribCount, hr0, twinFold0]

/-- The second twin has exactly one contributing neighbour. -/
lemma twinContrib1 : velContribCount magQ zeroForceEngine [twinA, twinB] 1 = 1 := by
  have hr1 : velPhaseRosterAt magQ zeroForceEngine [twinA, twinB] 1 =
      [twinA, twinB] := by
    rw [velPhaseRosterAt]
    norm_num [show List.range 2 = [0, 1] from rfl, List.take_succ_cons,
      List.take_zero, List.foldl_cons, List.foldl_nil, twinOuter0]
  rw [velContribCount, hr1, twinFold1]

/-- C5 (amended): with wall bounce enabled, after a tick every
particle's horizontal extent lies within the environment bounds up to a
rounding epsilon of 1; its vertical extent does too, UNLESS the particle
entered the wall phase violating the horizontal bound, in which case the
vertical position is left exactly as it was even if it also violated its
bound — only one axis is resolved per particle per tick.  The radius
hypotheses state that every radius in play is positive and fits within
the environment; the mass and contributing-count hypotheses confine the
statement to rosters on which the rational model is faithful to the
binary64 program: every mass positive and every particle with at least
one contributing force neighbour, so the unguarded zero-count division
of C1 (where the program computes NaN and no bound at all holds) is
never crossed. -/
theorem C5_amended_wall_bound_single_axis (magFn : Vec ℚ → ℚ)
    (radiusFn : ℚ → ℤ) (cfg : EngineData ℚ) (nextId : ℕ)
    (roster : List (Particle ℚ)) (hwb : cfg.WallBounce = true)
    (hrad : ∀ m, 1 ≤ radiusFn m ∧ 2 * radiusFn m ≤ cfg.EnvironmentSize - 1)
    (hall : ∀ p ∈ roster, 1 ≤ p.radius ∧ 2 * p.radius ≤ cfg.EnvironmentSize - 1)
    (hmass : ∀ p ∈ roster, 0 < p.mass)
    (hct : ∀ k < roster.length, 1 ≤ velContribCount magFn cfg roster k) :
    ∀ q ∈ UpdateParticles magFn radiusFn cfg nextId roster,
      ∃ p ∈ handleMergers radiusFn cfg nextId (sortByMassDesc
        (updateParticlePositions qOps (updateParticleVelocities qOps magFn cfg roster))),
        q = wallStep cfg p ∧
        extentWithin 1 cfg.EnvironmentSize q.radius q.position.1 ∧
        ((xWallViolated cfg p ∧ q.position.2 = p.position.2) ∨
          extentWithin 1 cfg.EnvironmentSize q.radius q.position.2) := by
  rw [UpdateParticles]
  simp only [hwb, if_true]
  intro q hq
  rcases List.mem_map.mp hq with ⟨p, hp, rfl⟩
  obtain ⟨hr, hr2⟩ := preWall_radius_bound magFn radiusFn cfg nextId roster hrad hall p hp
  obtain ⟨hrad_eq, hxb, hyb⟩ := wallStep_bounds cfg p hr hr2
  rw [hrad_eq]
  exact ⟨p, hp, rfl, hxb, hyb⟩

/-- C5 amended-theorem witness: the two equal-mass particles ticked
under the zero-force default configuration, where both contributing
counts evaluate to 1. -/
theorem C5_amended_wall_bound_single_axis_witness :
    zeroForceEngine.WallBounce = true ∧
    (∀ m : ℚ, 1 ≤ unitRadiusFn m ∧
      2 * unitRadiusFn m ≤ zeroForceEngine.EnvironmentSize - 1) ∧
    (∀ p ∈ [twinA, twinB], 1 ≤ p.radius ∧
      2 * p.radius ≤ zeroForceEngine.EnvironmentSize - 1) ∧
    (∀ p ∈ [twinA, twinB], (0 : ℚ) < p.mass) ∧
    (∀ k < [twinA, twinB].length,
      1 ≤ velContribCount magQ zeroForceEngine [twinA, twinB] k) ∧
    (∀ q ∈ UpdateParticles magQ unitRadiusFn zeroForceEngine 33 [twinA, twinB],
      ∃ p ∈ handleMergers unitRadiusFn zeroForceEngine 33 (sortByMassDesc
        (updateParticlePositions qOps
          (updateParticleVelocities qOps magQ zeroForceEngine [twinA, twinB]))),
        q = wallStep zeroForceEngine p ∧
        extentWithin 1 zeroForceEngine.EnvironmentSize q.radius q.position.1 ∧
        ((xWallViolated zeroForceEngine p ∧ q.position.2 = p.position.2) ∨
          extentWithin 1 zeroForceEngine.EnvironmentSize q.radius q.position.2)) := by
  have hwb : zeroForceEngine.WallBounce = true := rfl
  have hrad : ∀ m : ℚ, 1 ≤ unitRadiusFn m ∧
      2 * unitRadiusFn m ≤ zeroForceEngine.EnvironmentSize - 1 := by
    intro m
    refine ⟨le_refl 1, ?_⟩
    show (2 : ℤ) * 1 ≤ 800 - 1
    decide
  have hall : ∀ p ∈ [twinA, twinB], 1 ≤ p.radius ∧
      2 * p.radius ≤ zeroForceEngine.EnvironmentSize - 1 := by
    intro p hp
    simp only [List.mem_cons, List.not_mem_nil, or_false] at hp
    rcases hp with rfl | rfl
    · exact ⟨by decide, by decide⟩
    · exact ⟨by decide, by decide⟩
  have hmass : ∀ p ∈ [twinA, twinB], (0 : ℚ) < p.mass := by
    intro p hp
    simp only [List.mem_cons, List.not_mem_nil, or_false] at hp
    rcases hp with rfl | rfl
    · decide
    · decide
  have hct : ∀ k < [twinA, twinB].length,
      1 ≤ velContribCount magQ zeroForceEngine [twinA, twinB] k := by
    intro k hk
    simp only [List.length_cons, List.length_nil] at hk
    rcases k with _ | _ | n
    · exact le_of_eq twinContrib0.symm
    · exact le_of_eq twinContrib1.symm
    · omega
  exact ⟨hwb, hrad, hall, hmass, hct, C5_amended_wall_bound_single_axis magQ
    unitRadiusFn zeroForceEngine 33 [twinA, twinB] hwb hrad hall hmass hct⟩

/-- C5 counterexample: a particle violating both the horizontal and the
vertical bound in the same tick is NOT brought within bounds on both
axes — the wall phase resolves only the horizontal axis.  A stationary
radius-1 particle at `(-5, -5)`, accompanied by a distant in-bounds
spectator so that every contributing count is 1 (the trace never
crosses the unguarded zero-count division of C1, and with the force
strengths zero every computed value is exact in binary64), finishes the
tick at `(1, -5)`: its x position is clamped into the environment, but
its y position still exceeds the lower bound `radius = 1` by 6, far
beyond any rounding epsilon of 1. -/
theorem C5_counterexample_corner_second_axis_unresolved :
    zeroForceEngine.WallBounce = true ∧
    xWallViolated zeroForceEngine cornerP ∧
    yWallViolated zeroForceEngine cornerP ∧
    velContribCount magQ zeroForceEngine [cornerP, spectatorP] 0 = 1 ∧
    velContribCount magQ zeroForceEngine [cornerP, spectatorP] 1 = 1 ∧
    UpdateParticles magQ unitRadiusFn zeroForceEngine 9 [cornerP, spectatorP] =
      [{ cornerP with position := (1, -5) }, spectatorP] ∧
    ¬ extentWithin 1 zeroForceEngine.EnvironmentSize 1 (-5) := by
  refine ⟨rfl, by decide, by decide, cornerContrib0, cornerContrib1,
    tickCornerPair, ?_⟩
  intro h
  have h1 := h.1
  norm_num [extentWithin] at h1

/-- C9: merge-pending state never survives the tick in which it was
created — starting from a roster with no merge state (the state every
tick both receives and re-establishes), after a complete
`UpdateParticles` every particle still in the roster has
`merging = false` and an empty `MergingWith`: with merging enabled, the
aggregation phase deletes every flagged particle (roots and consumed
partners) and the newly constructed merged particles start clean; with
merging disabled, no merge state is ever created. -/
theorem C9_no_merge_state_survives_tick (magFn : Vec ℚ → ℚ)
    (radiusFn : ℚ → ℤ) (cfg : EngineData ℚ) (nextId : ℕ)
    (roster : List (Particle ℚ))
    (hclean : ∀ p ∈ roster, mergeClean p) :
    ∀ q ∈ UpdateParticles magFn radiusFn cfg nextId roster, mergeClean q := by
  by_cases hA : cfg.AllowMerge
  · rw [UpdateParticles]
    have h1 : ∀ q ∈ updateParticleVelocities qOps magFn cfg roster, mergeSynced q := by
      refine updateParticleVelocities_invariant cfg ?_ ?_ ?_ ?_ magFn roster ?_
      · intro p hp
        exact hp
      · intro _ p oid hp h
        exact absurd h (by simp)
      · intro p oid v hp
        exact hp
      · intro p v hp
        exact hp
      · intro p hp
        intro _
        exact (hclean p hp).2
    have h2 : ∀ q ∈ updateParticlePositions qOps
        (updateParticleVelocities qOps magFn cfg roster), mergeSynced q := by
      intro q hq
      rcases List.mem_map.mp hq with ⟨p, hp, rfl⟩
      intro hmg
      rw [(UpdatePosition_merge_fields p).2]
      exact h1 p hp ((UpdatePosition_merge_fields p).1 ▸ hmg)
    have h3 : ∀ q ∈ sortByMassDesc (updateParticlePositions qOps
        (updateParticleVelocities qOps magFn cfg roster)), mergeSynced q := by
      intro q hq
      exact h2 q ((sortByMassDesc_perm _).mem_iff.mp hq)
    have h4 := handleMergers_clears radiusFn cfg nextId _ hA h3
    by_cases hwb : cfg.WallBounce
    · simp only [hwb, if_true]
      intro q hq
      rcases List.mem_map.mp hq with ⟨p, hp, rfl⟩
      rcases wallStep_shape cfg p with h | ⟨pos, v, h⟩
      · rw [h]
        exact h4 p hp
      · rw [h]
        exact h4 p hp
    · simp only [hwb, Bool.false_eq_true, if_false]
      exact h4
  · refine UpdateParticles_invariant cfg ?_ ?_ ?_ ?_ ?_ ?_ ?_ ?_ ?_ nextId roster ?_
    · intro p hp
      exact hp
    · intro hA2
      exact absurd hA2 (by simpa using hA)
    · intro p oid v hp
      exact hp
    · intro p v hp
      exact hp
    · intro p hp
      exact ⟨(UpdatePosition_merge_fields p).1.trans hp.1,
        (UpdatePosition_merge_fields p).2.trans hp.2⟩
    · intro p hp
      exact ⟨rfl, hp.2⟩
    · intro p pid hp
      refine ⟨hp.1, ?_⟩
      show removeId pid p.mergingWith = []
      rw [hp.2]
      rfl
    · intro nid root partners _
      exact aggregateCluster_clean _ _ _ _
    · intro p pos v hp
      exact hp
    · exact hclean

/-- The heavier particle of the concrete classification witness. -/
def heavyP : Particle ℚ :=
  plainParticle 1 100 3 0 0 0 0 (Rat.divInt (-1) 2) (Rat.divInt 1 2)

/-- The lighter particle of the concrete classification witness. -/
def lightP : Particle ℚ :=
  plainParticle 2 10 1 1 0 0 0 (Rat.divInt 1 4) (Rat.divInt 1 2)

/-- C9 witness: a tick of a concrete clean two-particle roster under the
default configuration leaves only clean particles. -/
theorem C9_no_merge_state_survives_tick_witness :
    (∀ p ∈ [heavyP, lightP], mergeClean p) ∧
    (∀ q ∈ UpdateParticles magQ radiusApproxFn initializeEngine 77
      [heavyP, lightP], mergeClean q) := by
  have hclean : ∀ p ∈ [heavyP, lightP], mergeClean p := by
    intro p hp
    simp only [List.mem_cons, List.not_mem_nil, or_false] at hp
    rcases hp with rfl | rfl
    · exact ⟨rfl, rfl⟩
    · exact ⟨rfl, rfl⟩
  exact ⟨hclean, C9_no_merge_state_survives_tick magQ radiusApproxFn
    initializeEngine 77 [heavyP, lightP] hclean⟩

/-- C3 witness: the classification theorem applied to a concrete
100-vs-10 mass pair with opposite-sign close charges under the default
configuration. -/
theorem C3_collision_classification_witness :
    (0 : ℚ) < heavyP.mass ∧ (0 : ℚ) < lightP.mass ∧
    memberId heavyP.id lightP.mergingWith = false ∧
    (mergeCondition qOps initializeEngine heavyP lightP = true ↔
      (initializeEngine.AllowMerge = true ∧
        initializeEngine.mergeMassRatioThreshold <
          goMax heavyP.mass lightP.mass / goMin heavyP.mass lightP.mass ∧
        ((heavyP.closeCharge < 0 ↔ ¬(lightP.closeCharge < 0)) ∨
          |heavyP.closeCharge| + |lightP.closeCharge| <
            initializeEngine.mergeCloseChargeThreshold))) := by
  refine ⟨by decide, by decide, by decide, ?_⟩
  exact (C3_collision_classification initializeEngine heavyP lightP
    (by decide) (by decide) (by decide)).1

/-- C7: a newly colliding pair of equal masses never merges — the mass
ratio is exactly 1, which cannot exceed the (at least 1) merge threshold
— so whatever the charges and whether merging is allowed, the pair is
classified as a bounce: the first particle gets the bounce state, no
merging flag changes. -/
theorem C7_equal_mass_always_bounce (cfg : EngineData ℚ) (p o : Particle ℚ)
    (hmass : p.mass = o.mass) (hmp : 0 < p.mass)
    (hthr : 1 ≤ cfg.mergeMassRatioThreshold) :
    mergeCondition qOps cfg p o = false ∧
    (getP qOps (resolveNewCollision qOps cfg [p, o] 0 1) 0).bouncing = true ∧
    (getP qOps (resolveNewCollision qOps cfg [p, o] 0 1) 0).bouncingAgainst =
      some o.id ∧
    (getP qOps (resolveNewCollision qOps cfg [p, o] 0 1) 0).merging = p.merging ∧
    (getP qOps (resolveNewCollision qOps cfg [p, o] 0 1) 1).merging = o.merging := by
  have hfalse : mergeCondition qOps cfg p o = false := by
    by_cases hA : cfg.AllowMerge
    · have hratio : massRatioOf qOps cfg p o = 1 := by
        have hlt : qOps.lt o.mass p.mass = false := by
          rw [qlt_false_iff, hmass]
        rw [massRatioOf, if_pos hA, hlt]
        simp only [Bool.false_eq_true, if_false]
        show o.mass / p.mass = 1
        rw [← hmass]
        exact div_self (ne_of_gt hmp)
      have hthrlt : qOps.lt cfg.mergeMassRatioThreshold (massRatioOf qOps cfg p o) =
          false := by
        rw [hratio, qlt_false_iff]
        exact hthr
      rw [mergeCondition, hthrlt]
      simp
    · rw [mergeCondition]
      simp [hA]
  obtain ⟨v, hv⟩ := resolveNewCollision_bounce cfg p o hfalse
  rw [hv]
  exact ⟨hfalse, rfl, rfl, rfl, rfl⟩

/-- C7 witness: two mass-100 particles under the default configuration
(threshold 2.5): classified as a bounce with the bounce state set. -/
theorem C7_equal_mass_always_bounce_witness :
    twinA.mass = twinB.mass ∧ (0 : ℚ) < twinA.mass ∧
    (1 : ℚ) ≤ initializeEngine.mergeMassRatioThreshold ∧
    mergeCondition qOps initializeEngine twinA twinB = false ∧
    (getP qOps (resolveNewCollision qOps initializeEngine [twinA, twinB] 0 1)
      0).bouncing = true := by
  have h := C7_equal_mass_always_bounce initializeEngine twinA twinB
    (by decide) (by decide) (by decide)
  exact ⟨by decide, by decide, by decide, h.1, h.2.1⟩

/-- C10: `Particle.Clone` rebuilds only from mass, charges, position and
velocity, so after `RestoreInitialParticleStates` every particle of the
roster has an empty position history, history tracking off with size
zero, an empty `MergingWith` set and no bounce state, regardless of the
state the snapshot or the live roster were in; the five copied fields
agree index-by-index with the snapshot (the charge fields under the
always-true invariant that stored charges are inside their clamped
ranges, since every write goes through the clamping setters). -/
theorem C10_clone_reset (radiusFn : ℚ → ℤ) (initial : List (Particle ℚ))
    (hq : ∀ p ∈ initial, -1 ≤ p.closeCharge ∧ p.closeCharge ≤ 1 ∧
      0 ≤ p.farCharge ∧ p.farCharge ≤ 1) :
    (RestoreInitialParticleStates radiusFn initial).length = initial.length ∧
    (∀ q ∈ RestoreInitialParticleStates radiusFn initial,
      q.positionHistory = [] ∧ q.trackHistory = false ∧ q.historySize = 0 ∧
        q.mergingWith = [] ∧ q.bouncing = false ∧ q.merging = false ∧
        q.bouncingAgainst = none) ∧
    (∀ i, i < initial.length →
      (getP qOps (RestoreInitialParticleStates radiusFn initial) i).mass =
          (getP qOps initial i).mass ∧
        (getP qOps (RestoreInitialParticleStates radiusFn initial) i).closeCharge =
          (getP qOps initial i).closeCharge ∧
        (getP qOps (RestoreInitialParticleStates radiusFn initial) i).farCharge =
          (getP qOps initial i).farCharge ∧
        (getP qOps (RestoreInitialParticleStates radiusFn initial) i).position =
          (getP qOps initial i).position ∧
        (getP qOps (RestoreInitialParticleStates radiusFn initial) i).velocity =
          (getP qOps initial i).velocity) := by
  refine ⟨by simp [RestoreInitialParticleStates], ?_, ?_⟩
  · intro q hqmem
    rcases List.mem_map.mp hqmem with ⟨i, _, rfl⟩
    exact clone_defaults radiusFn i (getP qOps initial i)
  · intro i hi
    have hmem : getP qOps initial i ∈ initial := by
      have h1 : initial.getD i (dummyP qOps) = initial[i] :=
        List.getD_eq_getElem initial (dummyP qOps) hi
      show initial.getD i (dummyP qOps) ∈ initial
      rw [h1]
      exact List.getElem_mem hi
    rcases hq _ hmem with ⟨h1, h2, h3, h4⟩
    rw [getP_restore radiusFn initial i hi]
    exact clone_copies radiusFn i _ h1 h2 h3 h4

/-- A concrete snapshot particle carrying live history/merge/bounce
state, used by the reset witness. -/
def snapshotParticle : Particle ℚ :=
  { plainParticle 1 10 1 3 4 5 6 (Rat.divInt 1 2) (Rat.divInt 1 3) with
    trackHistory := true, historySize := 4,
    positionHistory := [((1 : ℚ), (2 : ℚ))],
    merging := true, mergingWith := [2], bouncing := true,
    bouncingAgainst := some 2 }

/-- C10 witness: resetting a concrete one-particle snapshot that carries
live history/merge/bounce state produces a clean copy. -/
theorem C10_clone_reset_witness :
    (∀ p ∈ [snapshotParticle],
      -1 ≤ p.closeCharge ∧ p.closeCharge ≤ 1 ∧
        0 ≤ p.farCharge ∧ p.farCharge ≤ 1) ∧
    (∀ q ∈ RestoreInitialParticleStates (fun _ => 1) [snapshotParticle],
      q.positionHistory = [] ∧ q.trackHistory = false ∧ q.historySize = 0 ∧
        q.mergingWith = [] ∧ q.bouncing = false ∧ q.merging = false ∧
        q.bouncingAgainst = none) := by
  constructor
  · decide
  · exact (C10_clone_reset (fun _ => 1) _ (by decide)).2.1

end GGGG
